import Mathlib

/-!
Verification of the manifest-to-entity composition engine and the
deployment-override merge engine of the `incubator-openwhisk-wskdeploy`
repository, against its natural-language specification.

The Go sources embedded here are:
  * `utils/webaction.go`            — web-export annotation shaping
  * `deployers/deploymentreader.go` — deployment-override merge engine
  * `parsers/manifest_parser.go`    — manifest-to-entity composition

Go strings are modelled as lists of characters (`Str`), Go `interface{}`
values reachable in these code paths as the inductive `Value`, Go maps
iterated with `range` as association lists carrying one fixed iteration
order, and fallible Go functions returning `(T, error)` as `Except`.
External collaborators (the file system, the platform runtime tables, the
parameter resolver, the environment-variable substitution) are passed in
as components of an explicit `Config` record, as §6 of the specification
prescribes ("static tables consumed as configuration, not re-derived").
-/

set_option autoImplicit false

namespace Wskdeploy

/-- Go `string`, modelled as a list of characters. -/
abbrev Str := List Char

/-- The subset of Go `interface{}` values that flows through the composers:
YAML scalars and the booleans produced by the web-export transform. -/
inductive Value where
  | vnull : Value
  | vbool : Bool → Value
  | vint : Int → Value
  | vstr : Str → Value
  deriving DecidableEq, Repr

instance : Inhabited Value := ⟨.vnull⟩

/-- `whisk.KeyValue` from the OpenWhisk Go client. -/
structure KeyValue where
  key : Str
  value : Value
  deriving DecidableEq, Repr

instance : Inhabited KeyValue := ⟨⟨[], .vnull⟩⟩

/-- `whisk.KeyValueArr`. -/
abbrev KeyValueArr := List KeyValue

/-- Keys of a key-value list, in order. -/
def keysOf (l : KeyValueArr) : List Str := l.map KeyValue.key

/-- First-occurrence lookup in a `whisk.KeyValueArr` (the observable
"value of an annotation/parameter" notion used throughout the spec). -/
def lookupKV (k : Str) : KeyValueArr → Option Value
  | [] => none
  | kv :: rest => if kv.key = k then some kv.value else lookupKV k rest

end Wskdeploy

namespace Wskdeploy

/-! ## utils/webaction.go -/

/-- `WEB_EXPORT_ANNOT` (utils/webaction.go line 27). -/
def WEB_EXPORT_ANNOT : Str := "web-export".toList

/-- `RAW_HTTP_ANNOT` (utils/webaction.go line 28). -/
def RAW_HTTP_ANNOT : Str := "raw-http".toList

/-- `FINAL_ANNOT` (utils/webaction.go line 29). -/
def FINAL_ANNOT : Str := "final".toList

/-- Modelled from the spec: `deleteKey` (helper of `utils/webaction.go`,
not part of the provided sources). §4.4: "always first strip the three
well-known web-related annotation keys from the existing list" — stripping
a key removes every entry carrying it. -/
def deleteKey (k : Str) (annots : KeyValueArr) : KeyValueArr :=
  annots.filter (fun kv => kv.key ≠ k)

/-- Modelled from the spec: `addKeyValue` (helper of `utils/webaction.go`,
not part of the provided sources). §4.4: "then re-insert the canonical
triple" — insertion appends the new entry at the end of the list. -/
def addKeyValue (k : Str) (v : Value) (annots : KeyValueArr) : KeyValueArr :=
  annots ++ [⟨k, v⟩]

/-- `deleteWebAnnotationKeys` (utils/webaction.go lines 88-94). -/
def deleteWebAnnotationKeys (annots : KeyValueArr) : KeyValueArr :=
  deleteKey FINAL_ANNOT (deleteKey RAW_HTTP_ANNOT (deleteKey WEB_EXPORT_ANNOT annots))

/-- `addWebAnnotations` (utils/webaction.go lines 61-68). -/
def addWebAnnotations (annots : KeyValueArr) : KeyValueArr :=
  addKeyValue FINAL_ANNOT (.vbool true)
    (addKeyValue RAW_HTTP_ANNOT (.vbool false)
      (addKeyValue WEB_EXPORT_ANNOT (.vbool true) (deleteWebAnnotationKeys annots)))

/-- `deleteWebAnnotations` (utils/webaction.go lines 70-77). -/
def deleteWebAnnotations (annots : KeyValueArr) : KeyValueArr :=
  addKeyValue FINAL_ANNOT (.vbool false)
    (addKeyValue RAW_HTTP_ANNOT (.vbool false)
      (addKeyValue WEB_EXPORT_ANNOT (.vbool false) (deleteWebAnnotationKeys annots)))

/-- `addRawAnnotations` (utils/webaction.go lines 79-86). -/
def addRawAnnotations (annots : KeyValueArr) : KeyValueArr :=
  addKeyValue FINAL_ANNOT (.vbool true)
    (addKeyValue RAW_HTTP_ANNOT (.vbool true)
      (addKeyValue WEB_EXPORT_ANNOT (.vbool true) (deleteWebAnnotationKeys annots)))

/-- ASCII lower-casing of one character, modelling Go `strings.ToLower`
on the ASCII mode strings that reach `WebAction`. -/
def lowerChar (c : Char) : Char :=
  if 'A' ≤ c ∧ c ≤ 'Z' then Char.ofNat (c.toNat + 32) else c

/-- `strings.ToLower` on the mode strings. -/
def toLowerStr (s : Str) : Str := s.map lowerChar

/-- A Go nil-able `whisk.KeyValueArr`: `none` is the nil slice. -/
abbrev OptKVArr := Option KeyValueArr

/-- `webActionAnnotations` (utils/webaction.go lines 50-59): the
"only touch if the caller passed a non-nil annotation list, or always
touch when the fetch flag is false" gate. -/
def webActionAnnotations (fetchAnnots : Bool) (annots : OptKVArr)
    (method : KeyValueArr → KeyValueArr) : Except Str OptKVArr :=
  if annots ≠ none ∨ ¬fetchAnnots then
    .ok (some (method (annots.getD [])))
  else
    .ok annots

/-- `WebAction` (utils/webaction.go lines 31-46). The `default` branch
returns `errors.New(webMode)`, an error naming the invalid mode. -/
def WebAction (webMode : Str) (annots : OptKVArr) (fetch : Bool) :
    Except Str OptKVArr :=
  let m := toLowerStr webMode
  if m = "yes".toList ∨ m = "true".toList then
    webActionAnnotations fetch annots addWebAnnotations
  else if m = "no".toList ∨ m = "false".toList then
    webActionAnnotations fetch annots deleteWebAnnotations
  else if m = "raw".toList then
    webActionAnnotations fetch annots addRawAnnotations
  else
    .error webMode

end Wskdeploy

namespace Wskdeploy

/-! ## deployers/deploymentreader.go

The override merge engine.  The deployment-side shapes carry only
inputs and annotations (§6: "a deployment document ... with only
inputs/parameters and annotations per entity, no executable definitions").
Go maps iterated with `range` are modelled as association lists in one
fixed iteration order. -/

/-- The inputs/annotations a deployment descriptor declares for one
package, action or trigger.  An input's `.Value` field is the raw
declared value. -/
structure DeplEntity where
  inputs : List (Str × Value)
  annots : List (Str × Value)
  deriving DecidableEq, Repr

/-- A format error produced by `wskderrors.NewYAMLFileFormatError`:
it carries the deployment file path and (here) the offending
annotation key embedded in the wrapped error message. -/
structure FormatError where
  filepath : Str
  offendingKey : Str
  deriving DecidableEq, Repr

/-- The environment-variable substitution `wskenv.GetEnvVar`
(external collaborator, §4.1/§4.7: deployment inputs are "resolved via
plain environment substitution"), passed in abstractly. -/
abbrev EnvSub := Value → Value

/-- The input-merge loop shared verbatim by the three binders
(`bindPackageInputsAndAnnotations` lines 110-132,
`bindActionInputsAndAnnotations` lines 200-224,
`bindTriggerInputsAndAnnotations` lines 286-312):
build `keyValArr` from the deployment-declared inputs with values passed
through `wskenv.GetEnvVar`, index it by key into `depParams`, then append
every manifest-composed parameter whose key is not in `depParams`. -/
def mergeInputsGo (sub : EnvSub) (depInputs : List (Str × Value))
    (maniParams : KeyValueArr) : KeyValueArr :=
  let keyValArr : KeyValueArr :=
    depInputs.foldl (fun acc nv => acc ++ [⟨nv.1, sub nv.2⟩]) []
  maniParams.foldl
    (fun acc kv =>
      if keyValArr.any (fun d => d.key == kv.key) then acc else acc ++ [kv])
    keyValArr

/-- One pass of the manifest-side annotation scan (the inner
`for i, a := range ... if name == a.Key` loop): overwrite the value of the
first entry carrying the key, in place, or report that the key is absent. -/
def overwriteFirst (name : Str) (v : Value) : KeyValueArr → Option KeyValueArr
  | [] => none
  | kv :: rest =>
      if kv.key = name then some ({ key := kv.key, value := v } :: rest)
      else (overwriteFirst name v rest).map (kv :: ·)

/-- The annotation-merge loop shared verbatim by the three binders
(`bindPackageInputsAndAnnotations` lines 135-158,
`bindActionInputsAndAnnotations` lines 226-248,
`bindTriggerInputsAndAnnotations` lines 314-336): each deployment-declared
annotation key must already exist among the manifest-composed annotations;
if found its value is overwritten in place, otherwise the merge fails with
a `YAMLFileFormatError` naming the key and the deployment file path. -/
def mergeAnnotationsGo (fp : Str) : List (Str × Value) → KeyValueArr →
    Except FormatError KeyValueArr
  | [], mani => .ok mani
  | (name, v) :: rest, mani =>
      match overwriteFirst name v mani with
      | some mani' => mergeAnnotationsGo fp rest mani'
      | none => .error ⟨fp, name⟩

/-- The per-entity body of the binders: merge inputs (only when the
deployment declares at least one input — the `len(pack.Inputs) > 0`
guard), then merge annotations.  Returns the entity's updated
parameter and annotation lists. -/
def bindEntityGo (sub : EnvSub) (fp : Str) (dep : DeplEntity)
    (params annots : KeyValueArr) :
    Except FormatError (KeyValueArr × KeyValueArr) :=
  let params' :=
    if dep.inputs ≠ [] then mergeInputsGo sub dep.inputs params else params
  match mergeAnnotationsGo fp dep.annots annots with
  | .ok annots' => .ok (params', annots')
  | .error e => .error e

/-- A composed `whisk.Package` platform entity (the fields the merge
engine and the claims observe). -/
structure WhiskPackage where
  name : Str
  nspace : Str
  publish : Bool
  parameters : KeyValueArr
  annots : KeyValueArr
  deriving DecidableEq, Repr

/-- Association-list lookup (`map[k]` returning a possibly-nil pointer). -/
def lookupAssoc {α : Type} (l : List (Str × α)) (k : Str) : Option α :=
  match l with
  | [] => none
  | (k', v) :: rest => if k' = k then some v else lookupAssoc rest k

/-- In-place update through the looked-up pointer: replace the value at
every binding of the key (a well-formed entity set binds each name once). -/
def updateAssoc {α : Type} (l : List (Str × α)) (k : Str) (v : α) :
    List (Str × α) :=
  l.map (fun p => if p.1 = k then (p.1, v) else p)

/-- The package-level scan of `bindPackageInputsAndAnnotations`
(lines 98-159): for each deployment package look up the composed package;
when the lookup comes back nil, print the name-mismatch warning and
`break` — the whole remaining scan stops and the call returns success.
Otherwise bind inputs and annotations of that package and continue. -/
def bindPackagesScan (sub : EnvSub) (fp : Str)
    (packMap : List (Str × DeplEntity))
    (packages : List (Str × WhiskPackage)) :
    Except FormatError (List (Str × WhiskPackage)) :=
  match packMap with
  | [] => .ok packages
  | (packName, dep) :: rest =>
      match lookupAssoc packages packName with
      | none => .ok packages
      | some wp =>
          match bindEntityGo sub fp dep wp.parameters wp.annots with
          | .ok (ps, as) =>
              bindPackagesScan sub fp rest
                (updateAssoc packages packName { wp with parameters := ps, annots := as })
          | .error e => .error e

end Wskdeploy

namespace Wskdeploy

/-! ## Go string / path library functions used by parsers/manifest_parser.go -/

/-- `strings.Split(s, sep)` for a one-character separator: the list of
substrings between occurrences of the separator (never empty). -/
def splitChar (c : Char) : Str → List Str
  | [] => [[]]
  | x :: xs =>
      if x = c then [] :: splitChar c xs
      else
        match splitChar c xs with
        | [] => [[x]]
        | h :: t => (x :: h) :: t

/-- ASCII white space, modelling the characters `unicode.IsSpace`
recognises in the ASCII range that can occur in manifest values. -/
def isSpaceChar (c : Char) : Bool :=
  c = ' ' ∨ c = '\t' ∨ c = '\n' ∨ c = '\r'

/-- `strings.TrimSpace`. -/
def trimSpace (s : Str) : Str :=
  ((s.dropWhile isSpaceChar).reverse.dropWhile isSpaceChar).reverse

/-- `strings.TrimRight(s, cutset)`: remove trailing characters that are
members of the cutset. -/
def trimRightCut (s : Str) (cutset : Str) : Str :=
  (s.reverse.dropWhile (fun c => cutset.contains c)).reverse

/-- `strings.HasPrefix`. -/
def goHasPre (pre s : Str) : Bool := pre.isPrefixOf s

/-- The segment processing of Go `path.Clean`: skip empty and `.`
segments, resolve `..` against the accumulated stack (dropping it at the
root of a rooted path, keeping it at the head of a relative path). -/
def cleanSegs (rooted : Bool) (acc : List Str) : List Str → List Str
  | [] => acc.reverse
  | s :: rest =>
      if s = [] ∨ s = ".".toList then cleanSegs rooted acc rest
      else if s = "..".toList then
        match acc with
        | t :: acc' =>
            if t = "..".toList then cleanSegs rooted (s :: acc) rest
            else cleanSegs rooted acc' rest
        | [] => if rooted then cleanSegs rooted [] rest else cleanSegs rooted [s] rest
      else cleanSegs rooted (s :: acc) rest

/-- Go `path.Clean`. -/
def pathClean (s : Str) : Str :=
  if s = [] then ".".toList
  else
    let rooted := s.head? = some '/'
    let segs := cleanSegs rooted [] (splitChar '/' s)
    let body := List.intercalate "/".toList segs
    if rooted then (if body = [] then "/".toList else '/' :: body)
    else (if body = [] then ".".toList else body)

/-- Go `path.Join(a, b)`: empty elements are ignored, the rest are joined
with a slash, and the result is Cleaned ("" when every element is empty). -/
def pathJoin2 (a b : Str) : Str :=
  if a = [] ∧ b = [] then []
  else if a = [] then pathClean b
  else if b = [] then pathClean a
  else pathClean (a ++ '/' :: b)

/-- Go `path.Ext`: the suffix beginning at the final dot in the final
slash-separated element; empty if there is no dot. -/
def pathExt (s : Str) : Str :=
  let lastSeg := (splitChar '/' s).getLastD []
  match (splitChar '.' lastSeg).reverse with
  | [] => []
  | [_] => []
  | ext :: _ => '.' :: ext

end Wskdeploy

namespace Wskdeploy

/-! ## parsers/manifest_parser.go — data model -/

/-- Composition errors (`wskderrors`).  `invalidRuntime` is
`NewInvalidRuntimeError(errMessage, fileName, actionName, runtime,
supportedRuntimes)`. -/
inductive ErrT where
  | invalidRuntime (message fileName actionName runtime : Str) (supported : List Str)
  | fileRead (path message : Str)
  | paramResolution (name filepath : Str)
  | generic (message : Str)
  deriving DecidableEq, Repr

/-- A `ParamSpec` as decoded from YAML (§3).  Only the parameter
resolver, an external collaborator (§4.1), inspects it. -/
structure Param where
  ptype : Str := []
  value : Value := .vnull
  deriving DecidableEq, Repr

/-- `whisk.Exec`. -/
structure ExecT where
  kind : Str := []
  code : Option Str := none
  main : Str := []
  components : List Str := []
  deriving DecidableEq, Repr

/-- `whisk.Limits` (pointer fields modelled as options). -/
structure WhiskLimits where
  timeout : Option Int := none
  memory : Option Int := none
  logsize : Option Int := none
  deriving DecidableEq, Repr

/-- A composed `whisk.Action` platform entity. -/
structure WhiskAction where
  name : Str := []
  nspace : Str := []
  publish : Bool := true
  exec : ExecT := {}
  parameters : KeyValueArr := []
  annots : KeyValueArr := []
  limits : Option WhiskLimits := none
  deriving DecidableEq, Repr

/-- `utils.ActionRecord`. -/
structure ActionRecord where
  action : WhiskAction
  packagename : Str
  filepath : Str
  deriving DecidableEq, Repr

/-- A composed `whisk.Trigger` platform entity. -/
structure WhiskTrigger where
  name : Str := []
  nspace : Str := []
  publish : Bool := true
  parameters : KeyValueArr := []
  annots : KeyValueArr := []
  deriving DecidableEq, Repr

/-- A `LimitsSpec` (§3): three supported fields and four fields that are
accepted syntactically but only warned about. -/
structure GoLimits where
  timeout : Option Int := none
  memory : Option Int := none
  logsize : Option Int := none
  concurrentActivations : Option Int := none
  userInvocationRate : Option Int := none
  codeSize : Option Int := none
  parameterSize : Option Int := none
  deriving DecidableEq, Repr

/-- An `ActionSpec` (§3) as decoded from YAML. -/
structure GoAction where
  name : Str := []
  function : Str := []
  location : Str := []
  runtime : Str := []
  main : Str := []
  inputs : List (Str × Param) := []
  outputs : List (Str × Param) := []
  annots : List (Str × Value) := []
  webexport : Str := []
  limits : Option GoLimits := none
  deriving DecidableEq, Repr

/-- A `SequenceSpec` (§3): the comma-delimited action list plus
annotations. -/
structure GoSequence where
  actions : Str := []
  annots : List (Str × Value) := []
  deriving DecidableEq, Repr

/-- A `TriggerSpec` (§3/§4.6). -/
structure GoTrigger where
  name : Str := []
  nspace : Str := []
  source : Str := []
  feed : Str := []
  inputs : List (Str × Param) := []
  annots : List (Str × Value) := []
  deriving DecidableEq, Repr

/-- A `PackageSpec` (§3), restricted to the fields `ComposePackage`
reads. -/
structure GoPackage where
  packagename : Str := []
  nspace : Str := []
  version : Str := []
  license : Str := []
  inputs : List (Str × Param) := []
  annots : List (Str × Value) := []
  deriving DecidableEq, Repr

/-- `utils.ZIP_FILE_EXTENSION`: the archive extension (§4.3). -/
def ZIP_FILE_EXTENSION : Str := "zip".toList

/-- `utils.JAR_FILE_EXTENSION`: the compiled-artifact extension (§4.3). -/
def JAR_FILE_EXTENSION : Str := "jar".toList

/-- `YAML_KEY_SEQUENCE`: the executable kind of a sequence action
(§4.5: "kind = sequence"). -/
def YAML_KEY_SEQUENCE : Str := "sequence".toList

/-- `YAML_KEY_FEED`: the reserved feed annotation key (§4.6). -/
def YAML_KEY_FEED : Str := "feed".toList

/-- The external collaborators of the composition engine (§6): the file
system, the platform's static runtime tables, the parameter resolver,
the environment substitution, and the two process-wide flags, threaded
as an explicit configuration value (§9). -/
structure Config where
  /-- `wskenv.GetEnvVar`. -/
  sub : Value → Value
  /-- `ResolveParameter(name, param, filePath)`; a `.vnull` result means
  "omit from the final list" (§4.1). -/
  resolve : Str → Param → Str → Except ErrT Value
  /-- `utils.IsDirectory`. -/
  isDirectory : Str → Bool
  /-- `utils.NewZipWritter(filePath, zipName).Zip()`. -/
  zipDir : Str → Except ErrT Unit
  /-- `utils.GetExec(zipName, runtime, false, "")`. -/
  getExec : Str → Str → Except ErrT ExecT
  /-- `utils.Read`. -/
  readFile : Str → Except ErrT Str
  /-- `base64.StdEncoding.EncodeToString`. -/
  base64 : Str → Str
  /-- `utils.FileExtensionRuntimeKindMap` (a Go map: `[]` when absent). -/
  extRuntime : Str → Str
  /-- `utils.DefaultRunTimes` (a Go map: `[]` when absent). -/
  defaultRT : Str → Str
  /-- The keys of `utils.SupportedRunTimes`; `utils.CheckExistRuntime`
  is membership in this list. -/
  supported : List Str
  /-- `utils.CheckRuntimeConsistencyWithFileExtension`. -/
  consistent : Str → Str → Bool
  /-- `wskenv.ConvertSingleName`. -/
  convertName : Str → Str
  /-- `utils.LimitsTimeoutValidation`. -/
  timeoutOK : Option Int → Bool
  /-- `utils.LimitsMemoryValidation`. -/
  memoryOK : Option Int → Bool
  /-- `utils.LimitsLogsizeValidation`. -/
  logsizeOK : Option Int → Bool
  /-- `utils.Flags.Strict`. -/
  strict : Bool
  /-- `utils.Flags.Managed`. -/
  managed : Bool

/-- The input/output resolution loops (`manifest_parser.go` lines
286-300, 568-581, 591-605, 757-771): resolve each declared parameter
with `ResolveParameter`, abort on the first resolution error, and skip
entries whose resolved value is nil. -/
def resolveKVs (cfg : Config) (fp : Str) :
    List (Str × Param) → Except ErrT KeyValueArr
  | [] => .ok []
  | (name, p) :: rest =>
      match cfg.resolve name p fp with
      | .error e => .error e
      | .ok v =>
          match resolveKVs cfg fp rest with
          | .error e => .error e
          | .ok tail =>
              if v ≠ .vnull then .ok (⟨name, v⟩ :: tail) else .ok tail

/-- The annotation resolution loops (lines 307-313, 616-622, 777-783):
plain environment substitution on each declared annotation value. -/
def resolveAnnots (cfg : Config) (l : List (Str × Value)) : KeyValueArr :=
  l.map (fun nv => ⟨nv.1, cfg.sub nv.2⟩)

end Wskdeploy

namespace Wskdeploy

/-! ## parsers/manifest_parser.go — composers -/

/-- `ComposePackage` (manifest_parser.go lines 233-324).  The
version/license defaulting (lines 246-283) only prints warning pairs and
mutates the local manifest copy — the warning text itself says the value
is "not persisted" — so it does not reach the produced entity. -/
def ComposePackage (cfg : Config) (pkg : GoPackage) (packageName : Str)
    (fp : Str) (ma : KeyValue) : Except ErrT WhiskPackage :=
  match resolveKVs cfg fp pkg.inputs with
  | .error e => .error e
  | .ok params =>
      let listOfAnnots := resolveAnnots cfg pkg.annots
      let anns := if cfg.managed then listOfAnnots ++ [ma] else listOfAnnots
      .ok { name := packageName, nspace := pkg.nspace, publish := false,
            parameters := params, annots := anns }

/-- One iteration of the `ComposeSequences` loop (manifest_parser.go
lines 355-395): split the comma-separated action list, trim each
element, package-qualify the unqualified ones, prefix the namespace,
and build a sequence-kind action entity. -/
def composeOneSequence (cfg : Config) (nspace : Str) (packageName : Str)
    (ma : KeyValue) (key : Str) (seq : GoSequence) : ActionRecord :=
  let actionList := splitChar ',' seq.actions
  let components := actionList.map (fun a =>
    let act := trimSpace a
    let act' :=
      if ¬ act.contains '/' ∧ ¬ goHasPre (packageName ++ ['/']) act then
        pathJoin2 packageName act
      else act
    pathJoin2 ('/' :: nspace) act')
  let keyValArr := resolveAnnots cfg seq.annots
  let anns := if cfg.managed then keyValArr ++ [ma] else keyValArr
  { action :=
      { name := key, nspace := nspace, publish := false,
        exec := { kind := YAML_KEY_SEQUENCE, components := components },
        parameters := [], annots := anns, limits := none },
    packagename := packageName, filepath := key }

/-- `ComposeSequences` (manifest_parser.go lines 352-398); the loop body
never fails. -/
def ComposeSequences (cfg : Config) (nspace : Str)
    (sequences : List (Str × GoSequence)) (packageName : Str)
    (ma : KeyValue) : List ActionRecord :=
  sequences.map (fun ks => composeOneSequence cfg nspace packageName ma ks.1 ks.2)

/-- One iteration of the `ComposeTriggers` loop (manifest_parser.go lines
723-793): map the deprecated `source` to `feed` when `feed` is unset, turn
a non-empty feed into the reserved feed annotation, then resolve
parameters and annotations. -/
def composeOneTrigger (cfg : Config) (fp : Str) (ma : KeyValue)
    (t : GoTrigger) : Except ErrT WhiskTrigger :=
  let name := cfg.convertName t.name
  let feed := if t.feed = [] then t.source else t.feed
  let feedAnns : KeyValueArr :=
    if feed ≠ [] then [⟨YAML_KEY_FEED, .vstr feed⟩] else []
  match resolveKVs cfg fp t.inputs with
  | .error e => .error e
  | .ok params =>
      let listOfAnnots := resolveAnnots cfg t.annots
      let anns1 := feedAnns ++ listOfAnnots
      let anns2 := if cfg.managed then anns1 ++ [ma] else anns1
      .ok { name := name, nspace := t.nspace, publish := false,
            parameters := params, annots := anns2 }

/-- `ComposeTriggers` (manifest_parser.go lines 719-796). -/
def ComposeTriggers (cfg : Config) (fp : Str) (triggers : List GoTrigger)
    (ma : KeyValue) : Except ErrT (List WhiskTrigger) :=
  match triggers with
  | [] => .ok []
  | t :: rest =>
      match composeOneTrigger cfg fp ma t with
      | .error e => .error e
      | .ok w =>
          match ComposeTriggers cfg fp rest ma with
          | .error e => .error e
          | .ok ws => .ok (w :: ws)

/-- `RUNTIME_ERR_MESSAGE` (manifest_parser.go line 427). -/
def RUNTIME_ERR_MESSAGE : Str :=
  "Please specify any of the supported runtime for zip actions in manifest YAML.".toList

/-- The error message of manifest_parser.go line 486. -/
def MSG_DISCOVER_RUNTIME : Str :=
  "ERROR: Failed to discover runtime from the action source files. ".toList ++
    RUNTIME_ERR_MESSAGE

/-- The error message of manifest_parser.go line 503. -/
def MSG_ZIP_RUNTIME_MISSING : Str :=
  "ERROR: Runtime is missing for zip action. ".toList ++ RUNTIME_ERR_MESSAGE

/-- The error message of manifest_parser.go line 549. -/
def MSG_ZIP_RUNTIME_UNSUPPORTED : Str :=
  "ERROR: Given runtime for a zip action is not supported by OpenWhisk server. ".toList ++
    RUNTIME_ERR_MESSAGE

/-- The placeholder runtime value of manifest_parser.go lines 487/504. -/
def NOT_SPECIFIED : Str := "Not Specified in Manifest YAML".toList

/-- The resolved source path of an action (manifest_parser.go line 453):
the manifest path with its last path element trimmed off as a character
cutset (`strings.TrimRight`) followed by the action's `function` field. -/
def actionFilePath (manifestPath function' : Str) : Str :=
  trimRightCut manifestPath ((splitChar '/' manifestPath).getLastD []) ++ function'

/-- The extension of an action source file as `ComposeActions` derives it
(lines 470-474): `path.Ext` with the leading dot dropped. -/
def extOf (filePath : Str) : Str :=
  let e := pathExt filePath
  if e.length > 0 ∧ e.head? = some '.' then e.drop 1 else e

/-- The source-resolution and packaging step of `ComposeActions`
(manifest_parser.go lines 450-509), for one action whose (possibly
location-aliased) `function` field is already settled.  Returns the
updated `ext` variable, the partially filled `Exec`, and the updated
`action.Function` (line 492 overwrites it with the resolved file path in
the single-file branch; the record built at line 687 reads it back). -/
def sourceStep (cfg : Config) (manifestPath : Str) (ext0 : Str)
    (a : GoAction) : Except ErrT (Str × ExecT × Str) :=
  if a.function ≠ [] then
    let lastSeg := (splitChar '/' manifestPath).getLastD []
    let filePath := actionFilePath manifestPath a.function
    if cfg.isDirectory filePath then
      let zipName := filePath ++ ".zip".toList
      match cfg.zipDir filePath with
      | .error e => .error e
      | .ok _ =>
          match cfg.getExec zipName a.runtime with
          | .error e => .error e
          | .ok exec => .ok (ext0, exec, a.function)
    else
      let ext := extOf filePath
      let kind := cfg.defaultRT (cfg.extRuntime ext)
      if kind = [] ∧ a.runtime = [] ∧ ext ≠ ZIP_FILE_EXTENSION then
        .error (.invalidRuntime MSG_DISCOVER_RUNTIME lastSeg a.name
          NOT_SPECIFIED cfg.supported)
      else
        match cfg.readFile filePath with
        | .error e => .error e
        | .ok dat =>
            let code :=
              if ext = ZIP_FILE_EXTENSION ∨ ext = JAR_FILE_EXTENSION then
                cfg.base64 dat
              else dat
            if ext = ZIP_FILE_EXTENSION ∧ a.runtime = [] then
              .error (.invalidRuntime MSG_ZIP_RUNTIME_MISSING lastSeg a.name
                NOT_SPECIFIED cfg.supported)
            else
              .ok (ext, { kind := kind, code := some code }, filePath)
  else
    .ok (ext0, {}, a.function)

/-- The runtime-reconciliation step of `ComposeActions`
(manifest_parser.go lines 518-558).  `ext` is the loop-carried variable
left over from the source step. -/
def runtimeStep (cfg : Config) (lastSeg : Str) (ext : Str) (a : GoAction)
    (exec : ExecT) : Except ErrT ExecT :=
  if a.runtime ≠ [] then
    if cfg.supported.contains a.runtime then
      if ext = ZIP_FILE_EXTENSION then .ok { exec with kind := a.runtime }
      else if cfg.consistent ext a.runtime then .ok { exec with kind := a.runtime }
      else if cfg.strict then .ok { exec with kind := a.runtime }
      else .ok exec
    else
      if ext = ZIP_FILE_EXTENSION then
        .error (.invalidRuntime MSG_ZIP_RUNTIME_UNSUPPORTED lastSeg a.name
          a.runtime cfg.supported)
      else .ok exec
  else .ok exec

/-- The limits step of `ComposeActions` (manifest_parser.go lines
645-681): validate the three supported limits, dropping each failing
field with a warning; attach a limits payload only when at least one
field validated; the four unsupported fields only produce warnings. -/
def limitsStep (cfg : Config) (l : Option GoLimits) : Option WhiskLimits :=
  match l with
  | none => none
  | some l =>
      let w : WhiskLimits :=
        { timeout := if cfg.timeoutOK l.timeout then l.timeout else none,
          memory := if cfg.memoryOK l.memory then l.memory else none,
          logsize := if cfg.logsizeOK l.logsize then l.logsize else none }
      if w.timeout ≠ none ∨ w.memory ≠ none ∨ w.logsize ≠ none then some w
      else none

/-- The deprecated-`location` aliasing of `ComposeActions`
(manifest_parser.go lines 446-448). -/
def aliasLocation (a : GoAction) : GoAction :=
  if a.function = [] ∧ a.location ≠ [] then { a with function := a.location }
  else a

/-- One iteration of the `ComposeActions` loop (manifest_parser.go lines
432-688).  `ext0` is the value of the loop-carried `ext` variable
(declared once, line 429, outside the loop) on entry to this iteration;
the updated value is returned alongside the record. -/
def composeOneAction (cfg : Config) (manifestPath : Str)
    (packageName : Str) (ma : KeyValue) (ext0 : Str) (key : Str)
    (a0 : GoAction) : Except ErrT (Str × ActionRecord) :=
  let a2 := aliasLocation { a0 with name := key }
  let lastSeg := (splitChar '/' manifestPath).getLastD []
  match sourceStep cfg manifestPath ext0 a2 with
  | .error e => .error e
  | .ok (ext, exec0, function') =>
    match runtimeStep cfg lastSeg ext a2 exec0 with
    | .error e => .error e
    | .ok exec1 =>
      let exec2 := if a2.main ≠ [] then { exec1 with main := a2.main } else exec1
      match resolveKVs cfg manifestPath a2.inputs with
      | .error e => .error e
      | .ok params =>
        match resolveKVs cfg manifestPath a2.outputs with
        | .error e => .error e
        | .ok _ =>
          let listOfAnnots := resolveAnnots cfg a2.annots
          let anns2 := if cfg.managed then listOfAnnots ++ [ma] else listOfAnnots
          let webres : Except ErrT KeyValueArr :=
            if a2.webexport = "true".toList then
              match WebAction "yes".toList (some listOfAnnots) false with
              | .ok o => .ok (o.getD [])
              | .error e => .error (.generic e)
            else .ok anns2
          match webres with
          | .error e => .error e
          | .ok anns3 =>
              .ok (ext,
                { action :=
                    { name := key, nspace := [], publish := false, exec := exec2,
                      parameters := params, annots := anns3,
                      limits := limitsStep cfg a2.limits },
                  packagename := packageName, filepath := function' })

/-- The fold of `ComposeActions` over the action map, threading the
loop-carried `ext` variable and accumulating records in order. -/
def composeActionsAux (cfg : Config) (manifestPath packageName : Str)
    (ma : KeyValue) (ext : Str) (acc : List ActionRecord) :
    List (Str × GoAction) → Except ErrT (List ActionRecord)
  | [] => .ok acc
  | (key, a) :: rest =>
      match composeOneAction cfg manifestPath packageName ma ext key a with
      | .ok (ext', r) =>
          composeActionsAux cfg manifestPath packageName ma ext' (acc ++ [r]) rest
      | .error e => .error e

/-- `ComposeActions` (manifest_parser.go lines 424-693). -/
def ComposeActions (cfg : Config) (manifestPath : Str)
    (actions : List (Str × GoAction)) (packageName : Str) (ma : KeyValue) :
    Except ErrT (List ActionRecord) :=
  composeActionsAux cfg manifestPath packageName ma [] [] actions

end Wskdeploy

namespace Wskdeploy

/-! ## Derived definitions used to state and witness the theorems -/

instance {e a : Type} [DecidableEq e] [DecidableEq a] : DecidableEq (Except e a) :=
  fun x y =>
    match x, y with
    | .ok u, .ok v =>
        if h : u = v then isTrue (by rw [h])
        else isFalse (by intro hc; cases hc; exact h rfl)
    | .error u, .error v =>
        if h : u = v then isTrue (by rw [h])
        else isFalse (by intro hc; cases hc; exact h rfl)
    | .ok _, .error _ => isFalse (by intro hc; cases hc)
    | .error _, .ok _ => isFalse (by intro hc; cases hc)

/-- Membership form of the three web annotation keys. -/
def isWebKey (k : Str) : Prop :=
  k = WEB_EXPORT_ANNOT ∨ k = RAW_HTTP_ANNOT ∨ k = FINAL_ANNOT

instance (k : Str) : Decidable (isWebKey k) := by
  unfold isWebKey; infer_instance

/-- The last value a key receives during a deployment-side scan
(a Go map makes the last write to a key win). -/
def lastVal (l : List (Str × Value)) (k : Str) : Option Value :=
  l.foldl (fun acc nv => if nv.1 = k then some nv.2 else acc) none

/-- Recognizer for `InvalidRuntimeError` results. -/
def isInvalidRuntimeErr {α : Type} : Except ErrT α → Bool
  | .error (.invalidRuntime ..) => true
  | _ => false

/-- A path segment that is a plain name: nonempty, without a slash, and
not one of the dot segments `path.Clean` rewrites. -/
def simpleSeg (s : Str) : Prop :=
  s ≠ [] ∧ '/' ∉ s ∧ s ≠ ".".toList ∧ s ≠ "..".toList

instance (s : Str) : Decidable (simpleSeg s) := by
  unfold simpleSeg; infer_instance

/-- A small concrete configuration instantiating the external
collaborators, used to witness the composition theorems: a platform
supporting two runtimes, a file system on which every path is a readable
file. -/
def cfgEx : Config :=
  { sub := id,
    resolve := fun _ p _ => .ok p.value,
    isDirectory := fun _ => false,
    zipDir := fun _ => .ok (),
    getExec := fun _ _ => .ok {},
    readFile := fun _ => .ok "CODE".toList,
    base64 := fun s => "b64:".toList ++ s,
    extRuntime := fun e => if e = "js".toList then "nodejs".toList else [],
    defaultRT := fun r => if r = "nodejs".toList then "nodejs:6".toList else [],
    supported := ["nodejs:6".toList, "python:2".toList],
    consistent := fun e r => e = "js".toList ∧ r = "nodejs:6".toList,
    convertName := id,
    timeoutOK := fun o => o ≠ none,
    memoryOK := fun o => o ≠ none,
    logsizeOK := fun o => o ≠ none,
    strict := false,
    managed := false }

end Wskdeploy

namespace Wskdeploy

/-! ## Theorems

### Web-export annotation shaping (claims C5, C6, C10) -/

theorem deleteWebAnnotationKeys_eq_filter (l : KeyValueArr) :
    deleteWebAnnotationKeys l = l.filter (fun kv => ¬ isWebKey kv.key) := by
  unfold deleteWebAnnotationKeys deleteKey
  rw [List.filter_filter, List.filter_filter]
  apply List.filter_congr
  intro kv _
  by_cases h1 : kv.key = WEB_EXPORT_ANNOT <;>
    by_cases h2 : kv.key = RAW_HTTP_ANNOT <;>
      by_cases h3 : kv.key = FINAL_ANNOT <;>
        simp [isWebKey, h1, h2, h3]

theorem addWebAnnotations_eq (l : KeyValueArr) :
    addWebAnnotations l =
      l.filter (fun kv => ¬ isWebKey kv.key) ++
        [⟨WEB_EXPORT_ANNOT, .vbool true⟩, ⟨RAW_HTTP_ANNOT, .vbool false⟩,
         ⟨FINAL_ANNOT, .vbool true⟩] := by
  unfold addWebAnnotations addKeyValue
  rw [deleteWebAnnotationKeys_eq_filter]
  simp

theorem deleteWebAnnotations_eq (l : KeyValueArr) :
    deleteWebAnnotations l =
      l.filter (fun kv => ¬ isWebKey kv.key) ++
        [⟨WEB_EXPORT_ANNOT, .vbool false⟩, ⟨RAW_HTTP_ANNOT, .vbool false⟩,
         ⟨FINAL_ANNOT, .vbool false⟩] := by
  unfold deleteWebAnnotations addKeyValue
  rw [deleteWebAnnotationKeys_eq_filter]
  simp

theorem addRawAnnotations_eq (l : KeyValueArr) :
    addRawAnnotations l =
      l.filter (fun kv => ¬ isWebKey kv.key) ++
        [⟨WEB_EXPORT_ANNOT, .vbool true⟩, ⟨RAW_HTTP_ANNOT, .vbool true⟩,
         ⟨FINAL_ANNOT, .vbool true⟩] := by
  unfold addRawAnnotations addKeyValue
  rw [deleteWebAnnotationKeys_eq_filter]
  simp

end Wskdeploy

namespace Wskdeploy

theorem webActionAnnotations_some (fetch : Bool) (anns : KeyValueArr)
    (m : KeyValueArr → KeyValueArr) :
    webActionAnnotations fetch (some anns) m = .ok (some (m anns)) := by
  simp [webActionAnnotations]

/-- Normal form of `WebAction` on a non-nil annotation list, one clause
per valid mode. -/
theorem webActionModes_spec (anns : KeyValueArr) (fetch : Bool) (mode : Str) :
    (toLowerStr mode = "yes".toList ∨ toLowerStr mode = "true".toList →
      WebAction mode (some anns) fetch = .ok (some
        (anns.filter (fun kv => ¬ isWebKey kv.key) ++
          [⟨WEB_EXPORT_ANNOT, .vbool true⟩, ⟨RAW_HTTP_ANNOT, .vbool false⟩,
           ⟨FINAL_ANNOT, .vbool true⟩]))) ∧
    (toLowerStr mode = "no".toList ∨ toLowerStr mode = "false".toList →
      WebAction mode (some anns) fetch = .ok (some
        (anns.filter (fun kv => ¬ isWebKey kv.key) ++
          [⟨WEB_EXPORT_ANNOT, .vbool false⟩, ⟨RAW_HTTP_ANNOT, .vbool false⟩,
           ⟨FINAL_ANNOT, .vbool false⟩]))) ∧
    (toLowerStr mode = "raw".toList →
      WebAction mode (some anns) fetch = .ok (some
        (anns.filter (fun kv => ¬ isWebKey kv.key) ++
          [⟨WEB_EXPORT_ANNOT, .vbool true⟩, ⟨RAW_HTTP_ANNOT, .vbool true⟩,
           ⟨FINAL_ANNOT, .vbool true⟩]))) := by
  refine ⟨fun h => ?_, fun h => ?_, fun h => ?_⟩
  · rw [← addWebAnnotations_eq, ← webActionAnnotations_some fetch anns]
    unfold WebAction
    rcases h with h | h <;> simp [h]
  · rw [← deleteWebAnnotations_eq, ← webActionAnnotations_some fetch anns]
    unfold WebAction
    rcases h with h | h <;> simp [h]
  · rw [← addRawAnnotations_eq, ← webActionAnnotations_some fetch anns]
    unfold WebAction
    simp [h]

/-- C5: For every annotation list and for web-export mode "yes"/"true"
(case-insensitive), the web-export transform first removes any existing
web-export, raw-http, and final entries and then inserts exactly
web-export=true, raw-http=false, final=true; for mode "no"/"false" it
inserts all three keys with value false; for mode "raw" it inserts all
three keys with value true; entries with other keys are left unchanged. -/
theorem c5_webexport_transform (anns : KeyValueArr) (fetch : Bool) (mode : Str) :
    (toLowerStr mode = "yes".toList ∨ toLowerStr mode = "true".toList →
      WebAction mode (some anns) fetch = .ok (some
        (anns.filter (fun kv => ¬ isWebKey kv.key) ++
          [⟨WEB_EXPORT_ANNOT, .vbool true⟩, ⟨RAW_HTTP_ANNOT, .vbool false⟩,
           ⟨FINAL_ANNOT, .vbool true⟩]))) ∧
    (toLowerStr mode = "no".toList ∨ toLowerStr mode = "false".toList →
      WebAction mode (some anns) fetch = .ok (some
        (anns.filter (fun kv => ¬ isWebKey kv.key) ++
          [⟨WEB_EXPORT_ANNOT, .vbool false⟩, ⟨RAW_HTTP_ANNOT, .vbool false⟩,
           ⟨FINAL_ANNOT, .vbool false⟩]))) ∧
    (toLowerStr mode = "raw".toList →
      WebAction mode (some anns) fetch = .ok (some
        (anns.filter (fun kv => ¬ isWebKey kv.key) ++
          [⟨WEB_EXPORT_ANNOT, .vbool true⟩, ⟨RAW_HTTP_ANNOT, .vbool true⟩,
           ⟨FINAL_ANNOT, .vbool true⟩]))) :=
  webActionModes_spec anns fetch mode

/-- Witness for C5 at a concrete input: mode "Yes" (mixed case) on a list
holding an unrelated key and a stale raw-http entry. -/
theorem c5_webexport_transform_witness :
    (toLowerStr "Yes".toList = "yes".toList ∨ toLowerStr "Yes".toList = "true".toList) ∧
    WebAction "Yes".toList
        (some [⟨"a".toList, .vint 1⟩, ⟨RAW_HTTP_ANNOT, .vbool true⟩]) true =
      .ok (some
        ([⟨"a".toList, .vint 1⟩, ⟨RAW_HTTP_ANNOT, .vbool true⟩].filter
            (fun kv => ¬ isWebKey kv.key) ++
          [⟨WEB_EXPORT_ANNOT, .vbool true⟩, ⟨RAW_HTTP_ANNOT, .vbool false⟩,
           ⟨FINAL_ANNOT, .vbool true⟩])) :=
  ⟨Or.inl (by decide),
   (c5_webexport_transform [⟨"a".toList, .vint 1⟩, ⟨RAW_HTTP_ANNOT, .vbool true⟩]
      true "Yes".toList).1 (Or.inl (by decide))⟩

end Wskdeploy

namespace Wskdeploy

theorem lookupKV_append (k : Str) (xs ys : KeyValueArr) :
    lookupKV k (xs ++ ys) =
      match lookupKV k xs with
      | some v => some v
      | none => lookupKV k ys := by
  induction xs with
  | nil => simp [lookupKV]
  | cons kv t ih =>
      by_cases h : kv.key = k <;> simp [lookupKV, h, ih]

theorem lookupKV_none_of_all (k : Str) (l : KeyValueArr)
    (h : ∀ kv ∈ l, kv.key ≠ k) : lookupKV k l = none := by
  induction l with
  | nil => rfl
  | cons kv t ih =>
      have hk := h kv (by simp)
      simp [lookupKV, hk]
      exact ih (fun kv' h' => h kv' (by simp [h']))

theorem lookupKV_strip_none (k : Str) (hk : isWebKey k) (X : KeyValueArr) :
    lookupKV k (X.filter (fun kv => ¬ isWebKey kv.key)) = none := by
  apply lookupKV_none_of_all
  intro kv hkv
  have := List.of_mem_filter hkv
  simp only [decide_eq_true_eq] at this
  intro he
  exact this (he ▸ hk)

theorem filter_strip_twice (l tri : KeyValueArr)
    (htri : ∀ kv ∈ tri, isWebKey kv.key) :
    (l.filter (fun kv => ¬ isWebKey kv.key) ++ tri).filter
        (fun kv => ¬ isWebKey kv.key) =
      l.filter (fun kv => ¬ isWebKey kv.key) := by
  rw [List.filter_append, List.filter_filter]
  have h1 : tri.filter (fun kv => ¬ isWebKey kv.key) = [] := by
    apply List.filter_eq_nil_iff.mpr
    intro kv hkv
    simp [htri kv hkv]
  rw [h1, List.append_nil]
  apply List.filter_congr
  intro kv _
  by_cases h : isWebKey kv.key <;> simp [h]

theorem addWebAnnotations_idem (l : KeyValueArr) :
    addWebAnnotations (addWebAnnotations l) = addWebAnnotations l := by
  rw [addWebAnnotations_eq, addWebAnnotations_eq, filter_strip_twice]
  intro kv hkv
  simp only [List.mem_cons, List.not_mem_nil, or_false] at hkv
  rcases hkv with h | h | h <;> subst h <;> simp [isWebKey]

theorem deleteWebAnnotations_idem (l : KeyValueArr) :
    deleteWebAnnotations (deleteWebAnnotations l) = deleteWebAnnotations l := by
  rw [deleteWebAnnotations_eq, deleteWebAnnotations_eq, filter_strip_twice]
  intro kv hkv
  simp only [List.mem_cons, List.not_mem_nil, or_false] at hkv
  rcases hkv with h | h | h <;> subst h <;> simp [isWebKey]

theorem addRawAnnotations_idem (l : KeyValueArr) :
    addRawAnnotations (addRawAnnotations l) = addRawAnnotations l := by
  rw [addRawAnnotations_eq, addRawAnnotations_eq, filter_strip_twice]
  intro kv hkv
  simp only [List.mem_cons, List.not_mem_nil, or_false] at hkv
  rcases hkv with h | h | h <;> subst h <;> simp [isWebKey]

end Wskdeploy

namespace Wskdeploy

/-- C6: The web-export transform is idempotent: for every annotation list
and every valid mode (yes/true, no/false, raw), applying the transform
twice with that mode yields the same annotation list as applying it once;
moreover applying mode "no" to the result of mode "yes" yields a list
whose web-export, raw-http, and final entries are all false. -/
theorem c6_webexport_idempotent (anns : KeyValueArr) (fetch : Bool) (mode : Str)
    (hv : toLowerStr mode = "yes".toList ∨ toLowerStr mode = "true".toList ∨
          toLowerStr mode = "no".toList ∨ toLowerStr mode = "false".toList ∨
          toLowerStr mode = "raw".toList) :
    (∀ o, WebAction mode (some anns) fetch = .ok o →
       WebAction mode o fetch = .ok o) ∧
    (∀ o, WebAction "yes".toList (some anns) fetch = .ok o →
       ∃ l, WebAction "no".toList o fetch = .ok (some l) ∧
         lookupKV WEB_EXPORT_ANNOT l = some (.vbool false) ∧
         lookupKV RAW_HTTP_ANNOT l = some (.vbool false) ∧
         lookupKV FINAL_ANNOT l = some (.vbool false)) := by
  have htriT : ∀ (b1 b2 b3 : Bool),
      ∀ kv ∈ ([⟨WEB_EXPORT_ANNOT, .vbool b1⟩, ⟨RAW_HTTP_ANNOT, .vbool b2⟩,
                ⟨FINAL_ANNOT, .vbool b3⟩] : KeyValueArr), isWebKey kv.key := by
    intro b1 b2 b3 kv hkv
    simp only [List.mem_cons, List.not_mem_nil, or_false] at hkv
    rcases hkv with h | h | h <;> subst h <;> simp [isWebKey]
  constructor
  · intro o h
    rcases hv with h1 | h1 | h1 | h1 | h1
    · have hc := (webActionModes_spec anns fetch mode).1 (Or.inl h1)
      rw [hc] at h; cases h
      have hc2 := (webActionModes_spec
        (anns.filter (fun kv => ¬ isWebKey kv.key) ++
          [⟨WEB_EXPORT_ANNOT, .vbool true⟩, ⟨RAW_HTTP_ANNOT, .vbool false⟩,
            ⟨FINAL_ANNOT, .vbool true⟩]) fetch mode).1 (Or.inl h1)
      rw [hc2, filter_strip_twice _ _ (htriT true false true)]
    · have hc := (webActionModes_spec anns fetch mode).1 (Or.inr h1)
      rw [hc] at h; cases h
      have hc2 := (webActionModes_spec
        (anns.filter (fun kv => ¬ isWebKey kv.key) ++
          [⟨WEB_EXPORT_ANNOT, .vbool true⟩, ⟨RAW_HTTP_ANNOT, .vbool false⟩,
            ⟨FINAL_ANNOT, .vbool true⟩]) fetch mode).1 (Or.inr h1)
      rw [hc2, filter_strip_twice _ _ (htriT true false true)]
    · have hc := (webActionModes_spec anns fetch mode).2.1 (Or.inl h1)
      rw [hc] at h; cases h
      have hc2 := (webActionModes_spec
        (anns.filter (fun kv => ¬ isWebKey kv.key) ++
          [⟨WEB_EXPORT_ANNOT, .vbool false⟩, ⟨RAW_HTTP_ANNOT, .vbool false⟩,
            ⟨FINAL_ANNOT, .vbool false⟩]) fetch mode).2.1 (Or.inl h1)
      rw [hc2, filter_strip_twice _ _ (htriT false false false)]
    · have hc := (webActionModes_spec anns fetch mode).2.1 (Or.inr h1)
      rw [hc] at h; cases h
      have hc2 := (webActionModes_spec
        (anns.filter (fun kv => ¬ isWebKey kv.key) ++
          [⟨WEB_EXPORT_ANNOT, .vbool false⟩, ⟨RAW_HTTP_ANNOT, .vbool false⟩,
            ⟨FINAL_ANNOT, .vbool false⟩]) fetch mode).2.1 (Or.inr h1)
      rw [hc2, filter_strip_twice _ _ (htriT false false false)]
    · have hc := (webActionModes_spec anns fetch mode).2.2 h1
      rw [hc] at h; cases h
      have hc2 := (webActionModes_spec
        (anns.filter (fun kv => ¬ isWebKey kv.key) ++
          [⟨WEB_EXPORT_ANNOT, .vbool true⟩, ⟨RAW_HTTP_ANNOT, .vbool true⟩,
            ⟨FINAL_ANNOT, .vbool true⟩]) fetch mode).2.2 h1
      rw [hc2, filter_strip_twice _ _ (htriT true true true)]
  · intro o h
    have hy := (webActionModes_spec anns fetch "yes".toList).1
      (Or.inl (by decide))
    rw [hy] at h
    cases h
    have hn := (webActionModes_spec
        (anns.filter (fun kv => ¬ isWebKey kv.key) ++
          [⟨WEB_EXPORT_ANNOT, .vbool true⟩, ⟨RAW_HTTP_ANNOT, .vbool false⟩,
            ⟨FINAL_ANNOT, .vbool true⟩]) fetch "no".toList).2.1
      (Or.inl (by decide))
    refine ⟨_, hn, ?_, ?_, ?_⟩
    all_goals (
      rw [lookupKV_append, lookupKV_strip_none _ (by simp [isWebKey])]
      simp [lookupKV, WEB_EXPORT_ANNOT, RAW_HTTP_ANNOT, FINAL_ANNOT])

/-- Witness for C6 at a concrete input: mode "raw" applied twice. -/
theorem c6_webexport_idempotent_witness :
    (toLowerStr "raw".toList = "yes".toList ∨ toLowerStr "raw".toList = "true".toList ∨
     toLowerStr "raw".toList = "no".toList ∨ toLowerStr "raw".toList = "false".toList ∨
     toLowerStr "raw".toList = "raw".toList) ∧
    WebAction "raw".toList
        (some [⟨"k".toList, .vint 7⟩, ⟨WEB_EXPORT_ANNOT, .vbool true⟩,
               ⟨RAW_HTTP_ANNOT, .vbool true⟩, ⟨FINAL_ANNOT, .vbool true⟩]) false =
      .ok (some [⟨"k".toList, .vint 7⟩, ⟨WEB_EXPORT_ANNOT, .vbool true⟩,
                 ⟨RAW_HTTP_ANNOT, .vbool true⟩, ⟨FINAL_ANNOT, .vbool true⟩]) := by
  refine ⟨by decide, ?_⟩
  exact (c6_webexport_idempotent [⟨"k".toList, .vint 7⟩] false "raw".toList
    (by decide)).1
    (some [⟨"k".toList, .vint 7⟩, ⟨WEB_EXPORT_ANNOT, .vbool true⟩,
           ⟨RAW_HTTP_ANNOT, .vbool true⟩, ⟨FINAL_ANNOT, .vbool true⟩])
    (by decide)

end Wskdeploy

namespace Wskdeploy

/-! ### Override merge engine (claims C1, C2, C8) -/

theorem foldl_append_map (sub : EnvSub) (l : List (Str × Value))
    (acc : KeyValueArr) :
    l.foldl (fun acc nv => acc ++ [⟨nv.1, sub nv.2⟩]) acc =
      acc ++ l.map (fun nv => ⟨nv.1, sub nv.2⟩) := by
  induction l generalizing acc with
  | nil => simp
  | cons nv t ih => simp [ih]

theorem foldl_filter_append (kvs mani acc : KeyValueArr) :
    mani.foldl
        (fun acc kv =>
          if kvs.any (fun d => d.key == kv.key) then acc else acc ++ [kv])
        acc =
      acc ++ mani.filter (fun kv => ¬ kvs.any (fun d => d.key == kv.key)) := by
  induction mani generalizing acc with
  | nil => simp
  | cons kv t ih =>
      simp only [List.foldl_cons, List.filter_cons]
      by_cases h : (kvs.any (fun d => d.key == kv.key)) = true
      · rw [if_pos h, ih]
        simp [h]
      · rw [if_neg h, ih]
        simp [h]

theorem mergeInputsGo_eq (sub : EnvSub) (dep : List (Str × Value))
    (mani : KeyValueArr) :
    mergeInputsGo sub dep mani =
      dep.map (fun nv => ⟨nv.1, sub nv.2⟩) ++
        mani.filter (fun kv => ¬ kv.key ∈ dep.map Prod.fst) := by
  unfold mergeInputsGo
  rw [foldl_append_map, foldl_filter_append, List.nil_append]
  congr 1
  apply List.filter_congr
  intro kv _
  by_cases hm : kv.key ∈ dep.map Prod.fst
  · have : (dep.map (fun nv => (⟨nv.1, sub nv.2⟩ : KeyValue))).any
        (fun d => d.key == kv.key) = true := by
      simp only [List.any_eq_true]
      rcases List.mem_map.mp hm with ⟨nv, hnv, hk⟩
      exact ⟨⟨nv.1, sub nv.2⟩, List.mem_map.mpr ⟨nv, hnv, rfl⟩, by simp [hk]⟩
    simp [this, hm]
  · have : (dep.map (fun nv => (⟨nv.1, sub nv.2⟩ : KeyValue))).any
        (fun d => d.key == kv.key) = false := by
      simp only [List.any_eq_false]
      intro d hd
      rcases List.mem_map.mp hd with ⟨nv, hnv, rfl⟩
      simp only [beq_iff_eq]
      intro he
      exact hm (List.mem_map.mpr ⟨nv, hnv, he⟩)
    simp [this, hm]

theorem lookupKV_some_of_mem_keys (k : Str) (l : KeyValueArr)
    (h : k ∈ keysOf l) : ∃ v, lookupKV k l = some v := by
  induction l with
  | nil => simp [keysOf] at h
  | cons kv t ih =>
      by_cases hk : kv.key = k
      · exact ⟨kv.value, by simp [lookupKV, hk]⟩
      · simp only [keysOf, List.map_cons, List.mem_cons] at h
        rcases h with h | h
        · exact absurd h.symm hk
        · rcases ih h with ⟨v, hv⟩
          exact ⟨v, by simp [lookupKV, hk, hv]⟩

theorem lookupKV_filter_of_pred (k : Str) (l : KeyValueArr)
    (p : KeyValue → Bool) (hp : ∀ kv, kv.key = k → p kv = true) :
    lookupKV k (l.filter p) = lookupKV k l := by
  induction l with
  | nil => rfl
  | cons kv t ih =>
      by_cases hk : kv.key = k
      · rw [List.filter_cons, hp kv hk]
        simp [lookupKV, hk]
      · rw [List.filter_cons]
        by_cases hpkv : p kv <;> simp [lookupKV, hk, hpkv, ih]

/-- C1: For every composed entity set and deployment descriptor, and for
each package, action, and trigger addressed by the deployment descriptor
that declares at least one input, the merged parameter list equals the
deployment-declared inputs (values resolved by plain environment
substitution) followed by every manifest-composed parameter whose key is
not among the deployment-declared keys, with the surviving manifest
parameters kept in their original order; for shared keys the deployment
value wins, manifest-only keys survive, and deployment-only keys are
introduced.  (`bindEntityGo` is the per-entity merge body shared verbatim
by the package, action and trigger binders.) -/
theorem c1_override_input_merge (sub : EnvSub) (fp : Str) (dep : DeplEntity)
    (params annots ps' as' : KeyValueArr)
    (hin : dep.inputs ≠ [])
    (h : bindEntityGo sub fp dep params annots = .ok (ps', as')) :
    ps' = dep.inputs.map (fun nv => ⟨nv.1, sub nv.2⟩) ++
          params.filter (fun kv => ¬ kv.key ∈ dep.inputs.map Prod.fst) ∧
    (∀ k, k ∈ dep.inputs.map Prod.fst →
       lookupKV k ps' = lookupKV k (dep.inputs.map (fun nv => ⟨nv.1, sub nv.2⟩))) ∧
    (∀ k, k ∉ dep.inputs.map Prod.fst → lookupKV k ps' = lookupKV k params) := by
  unfold bindEntityGo at h
  rw [if_pos hin] at h
  have hps : ps' = mergeInputsGo sub dep.inputs params := by
    cases hm : mergeAnnotationsGo fp dep.annots annots with
    | ok annots2 => rw [hm] at h; cases h; rfl
    | error e => rw [hm] at h; cases h
  subst hps
  rw [mergeInputsGo_eq]
  refine ⟨rfl, fun k hk => ?_, fun k hk => ?_⟩
  · have hkeys : keysOf (dep.inputs.map (fun nv => (⟨nv.1, sub nv.2⟩ : KeyValue))) =
        dep.inputs.map Prod.fst := by
      simp [keysOf, List.map_map, Function.comp]
    rcases lookupKV_some_of_mem_keys k
        (dep.inputs.map (fun nv => (⟨nv.1, sub nv.2⟩ : KeyValue)))
        (hkeys ▸ hk) with ⟨v, hv⟩
    rw [lookupKV_append, hv]
  · have hnone : lookupKV k (dep.inputs.map (fun nv => (⟨nv.1, sub nv.2⟩ : KeyValue))) = none := by
      apply lookupKV_none_of_all
      intro kv hkv he
      rcases List.mem_map.mp hkv with ⟨nv, hnv, rfl⟩
      exact hk (he ▸ List.mem_map.mpr ⟨nv, hnv, rfl⟩)
    rw [lookupKV_append, hnone]
    exact lookupKV_filter_of_pred k params _
      (fun kv hkv => by simp [hkv, hk])

/-- Witness for C1 on the spec's §8 example: manifest parameters
`[x=1, y=2]` merged with deployment input `x=9` yield `[x=9, y=2]`. -/
theorem c1_override_input_merge_witness :
    ((⟨[("x".toList, Value.vint 9)], []⟩ : DeplEntity).inputs ≠ []) ∧
    bindEntityGo id "deployment.yml".toList ⟨[("x".toList, Value.vint 9)], []⟩
        [⟨"x".toList, .vint 1⟩, ⟨"y".toList, .vint 2⟩] [] =
      .ok ([⟨"x".toList, .vint 9⟩, ⟨"y".toList, .vint 2⟩], []) ∧
    ([⟨"x".toList, .vint 9⟩, ⟨"y".toList, .vint 2⟩] : KeyValueArr) =
      [("x".toList, Value.vint 9)].map (fun nv => ⟨nv.1, id nv.2⟩) ++
        [⟨"x".toList, .vint 1⟩, ⟨"y".toList, .vint 2⟩].filter
          (fun kv => ¬ kv.key ∈ [("x".toList, Value.vint 9)].map Prod.fst) := by
  refine ⟨by decide, by decide, ?_⟩
  exact (c1_override_input_merge id "deployment.yml".toList
    ⟨[("x".toList, Value.vint 9)], []⟩
    [⟨"x".toList, .vint 1⟩, ⟨"y".toList, .vint 2⟩] []
    [⟨"x".toList, .vint 9⟩, ⟨"y".toList, .vint 2⟩] []
    (by decide) (by decide)).1

end Wskdeploy

namespace Wskdeploy

theorem overwriteFirst_eq_none (name : Str) (v : Value) (mani : KeyValueArr) :
    overwriteFirst name v mani = none ↔ name ∉ keysOf mani := by
  induction mani with
  | nil => simp [overwriteFirst, keysOf]
  | cons kv t ih =>
      by_cases hk : kv.key = name
      · simp [overwriteFirst, hk, keysOf]
      · rw [overwriteFirst, if_neg hk]
        constructor
        · intro h hc
          have h' : overwriteFirst name v t = none := by
            cases ho : overwriteFirst name v t with
            | none => rfl
            | some m => rw [ho] at h; cases h
          simp only [keysOf, List.map_cons, List.mem_cons] at hc
          rcases hc with hc | hc
          · exact hk hc.symm
          · exact (ih.mp h') hc
        · intro h
          have hmem : name ∉ keysOf t := by
            intro hc
            apply h
            simp only [keysOf, List.map_cons, List.mem_cons]
            exact Or.inr hc
          rw [ih.mpr hmem]
          rfl

theorem overwriteFirst_some_spec (name : Str) (v : Value)
    (mani mani' : KeyValueArr)
    (h : overwriteFirst name v mani = some mani') :
    keysOf mani' = keysOf mani ∧ lookupKV name mani' = some v ∧
      ∀ k, k ≠ name → lookupKV k mani' = lookupKV k mani := by
  induction mani generalizing mani' with
  | nil => cases h
  | cons kv t ih =>
      by_cases hk : kv.key = name
      · rw [overwriteFirst, if_pos hk] at h
        cases h
        refine ⟨by simp [keysOf], by simp [lookupKV, hk], fun k hkk => ?_⟩
        by_cases he : kv.key = k
        · exact absurd (he.symm.trans hk) hkk
        · simp [lookupKV, he]
      · rw [overwriteFirst, if_neg hk] at h
        cases ht : overwriteFirst name v t with
        | none => rw [ht] at h; cases h
        | some t' =>
            rw [ht] at h
            cases h
            rcases ih t' ht with ⟨hkeys, hname, hother⟩
            have hkc : keysOf (kv :: t') = keysOf (kv :: t) := by
              simp only [keysOf, List.map_cons]
              exact congrArg (kv.key :: ·) hkeys
            refine ⟨hkc, ?_, fun k hkk => ?_⟩
            · have : kv.key ≠ name := hk
              simp [lookupKV, this, hname]
            · by_cases he : kv.key = k <;> simp [lookupKV, he, hother k hkk]

theorem overwriteFirst_isSome (name : Str) (v : Value) (mani : KeyValueArr)
    (h : name ∈ keysOf mani) :
    ∃ mani', overwriteFirst name v mani = some mani' := by
  cases ho : overwriteFirst name v mani with
  | none => exact absurd h ((overwriteFirst_eq_none name v mani).mp ho)
  | some m => exact ⟨m, rfl⟩

theorem mergeAnnotationsGo_ok_spec (fp : Str) (dep : List (Str × Value))
    (mani res : KeyValueArr)
    (h : mergeAnnotationsGo fp dep mani = .ok res) :
    keysOf res = keysOf mani ∧
      ∀ k, k ∉ dep.map Prod.fst → lookupKV k res = lookupKV k mani := by
  induction dep generalizing mani with
  | nil =>
      cases h
      exact ⟨rfl, fun _ _ => rfl⟩
  | cons nv rest ih =>
      rw [mergeAnnotationsGo] at h
      cases ho : overwriteFirst nv.1 nv.2 mani with
      | none => rw [ho] at h; cases h
      | some mani' =>
          rw [ho] at h
          rcases ih mani' h with ⟨hkeys, hlook⟩
          rcases overwriteFirst_some_spec nv.1 nv.2 mani mani' ho with
            ⟨hkeys', _, hother⟩
          refine ⟨hkeys.trans hkeys', fun k hk => ?_⟩
          have h1 : k ∉ rest.map Prod.fst := fun hc => hk (by simp [hc])
          have h2 : k ≠ nv.1 := fun hc => hk (by simp [hc])
          rw [hlook k h1, hother k h2]

theorem lastVal_foldl (rest : List (Str × Value)) (k : Str)
    (i : Option Value) :
    rest.foldl (fun acc nv => if nv.1 = k then some nv.2 else acc) i =
      match lastVal rest k with
      | some v => some v
      | none => i := by
  induction rest generalizing i with
  | nil => simp [lastVal]
  | cons nv t ih =>
      show t.foldl _ (if nv.1 = k then some nv.2 else i) = _
      rw [ih]
      have : lastVal (nv :: t) k =
          match lastVal t k with
          | some v => some v
          | none => if nv.1 = k then some nv.2 else none := by
        show t.foldl _ (if nv.1 = k then some nv.2 else none) = _
        rw [ih]
      rw [this]
      cases lastVal t k with
      | some v => rfl
      | none => by_cases hk : nv.1 = k <;> simp [hk]

theorem lastVal_eq_none (l : List (Str × Value)) (k : Str)
    (h : k ∉ l.map Prod.fst) : lastVal l k = none := by
  induction l with
  | nil => rfl
  | cons nv t ih =>
      have h1 : nv.1 ≠ k := fun hc => h (by simp [hc])
      have h2 : k ∉ t.map Prod.fst := fun hc => h (by simp [hc])
      show t.foldl _ (if nv.1 = k then some nv.2 else none) = none
      rw [if_neg h1, lastVal_foldl, ih h2]

theorem lastVal_isSome_of_mem (l : List (Str × Value)) (k : Str)
    (h : k ∈ l.map Prod.fst) : ∃ v, lastVal l k = some v := by
  induction l with
  | nil => simp at h
  | cons nv t ih =>
      have hcons : lastVal (nv :: t) k =
          match lastVal t k with
          | some w => some w
          | none => if nv.1 = k then some nv.2 else none := by
        show t.foldl _ (if nv.1 = k then some nv.2 else none) = _
        rw [lastVal_foldl]
      by_cases ht : k ∈ t.map Prod.fst
      · rcases ih ht with ⟨v, hv⟩
        exact ⟨v, by rw [hcons, hv]⟩
      · have hk : nv.1 = k := by
          simp only [List.map_cons, List.mem_cons] at h
          rcases h with h | h
          · exact h.symm
          · exact absurd h ht
        exact ⟨nv.2, by rw [hcons, lastVal_eq_none t k ht, if_pos hk]⟩

theorem mergeAnnotationsGo_lastVal (fp : Str) (dep : List (Str × Value))
    (mani res : KeyValueArr)
    (h : mergeAnnotationsGo fp dep mani = .ok res)
    (k : Str) (v : Value) (hl : lastVal dep k = some v) :
    lookupKV k res = some v := by
  induction dep generalizing mani with
  | nil => cases hl.symm.trans (rfl : lastVal [] k = none)
  | cons nv rest ih =>
      rw [mergeAnnotationsGo] at h
      cases ho : overwriteFirst nv.1 nv.2 mani with
      | none => rw [ho] at h; cases h
      | some mani' =>
          rw [ho] at h
          have hcons : lastVal (nv :: rest) k =
              match lastVal rest k with
              | some w => some w
              | none => if nv.1 = k then some nv.2 else none := by
            show rest.foldl _ (if nv.1 = k then some nv.2 else none) = _
            rw [lastVal_foldl]
          cases hrest : lastVal rest k with
          | some w =>
              rw [hcons, hrest] at hl
              cases hl
              exact ih mani' h hrest
          | none =>
              rw [hcons, hrest] at hl
              by_cases hk : nv.1 = k
              · rw [if_pos hk] at hl
                cases hl
                have hnotin : k ∉ rest.map Prod.fst := by
                  intro hc
                  rcases lastVal_isSome_of_mem rest k hc with ⟨w, hw⟩
                  rw [hw] at hrest
                  cases hrest
                have hmani' : lookupKV k mani' = some nv.2 := by
                  have := (overwriteFirst_some_spec nv.1 nv.2 mani mani' ho).2.1
                  rw [hk] at this
                  exact this
                rw [(mergeAnnotationsGo_ok_spec fp rest mani' res h).2 k hnotin,
                  hmani']
              · rw [if_neg hk] at hl
                cases hl

end Wskdeploy

namespace Wskdeploy

theorem mergeAnnotationsGo_total (fp : Str) (dep : List (Str × Value))
    (mani : KeyValueArr) (h : ∀ nv ∈ dep, nv.1 ∈ keysOf mani) :
    ∃ res, mergeAnnotationsGo fp dep mani = .ok res := by
  induction dep generalizing mani with
  | nil => exact ⟨mani, rfl⟩
  | cons nv rest ih =>
      rcases overwriteFirst_isSome nv.1 nv.2 mani (h nv (by simp)) with ⟨mani', hm⟩
      have hkeys := (overwriteFirst_some_spec _ _ _ _ hm).1
      rcases ih mani'
          (fun x hx => by rw [hkeys]; exact h x (by simp [hx])) with ⟨res, hres⟩
      refine ⟨res, ?_⟩
      rw [mergeAnnotationsGo, hm]
      exact hres

theorem mergeAnnotationsGo_error_first (fp : Str)
    (pre post : List (Str × Value)) (mani : KeyValueArr)
    (name : Str) (v : Value)
    (hpre : ∀ nv ∈ pre, nv.1 ∈ keysOf mani) (hname : name ∉ keysOf mani) :
    mergeAnnotationsGo fp (pre ++ (name, v) :: post) mani = .error ⟨fp, name⟩ := by
  induction pre generalizing mani with
  | nil =>
      rw [List.nil_append, mergeAnnotationsGo,
        (overwriteFirst_eq_none name v mani).mpr hname]
  | cons nv rest ih =>
      rcases overwriteFirst_isSome nv.1 nv.2 mani (hpre nv (by simp)) with ⟨mani', hm⟩
      have hkeys := (overwriteFirst_some_spec _ _ _ _ hm).1
      rw [List.cons_append, mergeAnnotationsGo, hm]
      exact ih mani'
        (fun x hx => by rw [hkeys]; exact hpre x (by simp [hx]))
        (by rw [hkeys]; exact hname)

/-- C2: For every deployment-declared annotation key on a package, action,
or trigger that exists in the composed entity set: if the key already
exists among the manifest-composed annotations of that exact entity, its
value is overwritten in place and merging continues; if it does not
exist, the merge fails immediately with a format error carrying the
offending key and the deployment file path; a deployment descriptor can
therefore never introduce a new annotation key.
(`mergeAnnotationsGo` is the annotation-merge loop shared verbatim by the
package, action and trigger binders.) -/
theorem c2_override_annots (fp : Str) (dep : List (Str × Value))
    (mani : KeyValueArr) :
    ((∀ nv ∈ dep, nv.1 ∈ keysOf mani) →
       ∃ res, mergeAnnotationsGo fp dep mani = .ok res) ∧
    (∀ res, mergeAnnotationsGo fp dep mani = .ok res →
       keysOf res = keysOf mani ∧
       (∀ k v, lastVal dep k = some v → lookupKV k res = some v) ∧
       (∀ k, k ∉ dep.map Prod.fst → lookupKV k res = lookupKV k mani)) ∧
    (∀ pre name v post, dep = pre ++ (name, v) :: post →
       (∀ nv ∈ pre, nv.1 ∈ keysOf mani) → name ∉ keysOf mani →
       mergeAnnotationsGo fp dep mani = .error ⟨fp, name⟩) := by
  refine ⟨mergeAnnotationsGo_total fp dep mani,
    fun res h =>
      ⟨(mergeAnnotationsGo_ok_spec fp dep mani res h).1,
       fun k v hv => mergeAnnotationsGo_lastVal fp dep mani res h k v hv,
       (mergeAnnotationsGo_ok_spec fp dep mani res h).2⟩,
    ?_⟩
  intro pre name v post hdep hpre hname
  subst hdep
  exact mergeAnnotationsGo_error_first fp pre post mani name v hpre hname

/-- Witness for C2 on the spec's §8 example: deployment annotation `b=2`
against manifest annotations `{a=1}` fails with a format error naming
`b` and the deployment path; deployment annotation `a=5` succeeds. -/
theorem c2_override_annots_witness :
    mergeAnnotationsGo "deployment.yml".toList [("b".toList, .vint 2)]
        [⟨"a".toList, .vint 1⟩] =
      .error ⟨"deployment.yml".toList, "b".toList⟩ ∧
    (∃ res, mergeAnnotationsGo "deployment.yml".toList [("a".toList, .vint 5)]
        [⟨"a".toList, .vint 1⟩] = .ok res) :=
  ⟨(c2_override_annots "deployment.yml".toList [("b".toList, .vint 2)]
      [⟨"a".toList, .vint 1⟩]).2.2 [] "b".toList (.vint 2) [] rfl
      (by decide) (by decide),
   (c2_override_annots "deployment.yml".toList [("a".toList, .vint 5)]
      [⟨"a".toList, .vint 1⟩]).1 (by decide)⟩

end Wskdeploy

namespace Wskdeploy

theorem lookupAssoc_eq_none_iff {α : Type} (l : List (Str × α)) (k : Str) :
    lookupAssoc l k = none ↔ k ∉ l.map Prod.fst := by
  induction l with
  | nil =>
      constructor
      · intro _ hc
        cases hc
      · intro _
        rfl
  | cons p t ih =>
      show (if p.1 = k then some p.2 else lookupAssoc t k) = none ↔ _
      by_cases hk : p.1 = k
      · rw [if_pos hk]
        constructor
        · intro hc
          cases hc
        · intro hc
          exact (hc (by rw [List.map_cons, ← hk]
                        exact List.mem_cons_self _ _)).elim
      · rw [if_neg hk, ih]
        constructor
        · intro h hc
          rcases List.mem_cons.mp hc with hc | hc
          · exact hk hc.symm
          · exact h hc
        · intro h hc
          exact h (List.mem_cons_of_mem _ hc)

theorem updateAssoc_keys {α : Type} (l : List (Str × α)) (k : Str) (v : α) :
    (updateAssoc l k v).map Prod.fst = l.map Prod.fst := by
  induction l with
  | nil => rfl
  | cons p t ih =>
      show ((if p.1 = k then (p.1, v) else p) :: updateAssoc t k v).map Prod.fst
        = (p :: t).map Prod.fst
      by_cases hk : p.1 = k
      · rw [if_pos hk, List.map_cons, List.map_cons, ih]
      · rw [if_neg hk, List.map_cons, List.map_cons, ih]

theorem bindPackagesScan_cons (sub : EnvSub) (fp : Str) (nm : Str)
    (d : DeplEntity) (rest : List (Str × DeplEntity))
    (packages : List (Str × WhiskPackage)) :
    bindPackagesScan sub fp ((nm, d) :: rest) packages =
      match lookupAssoc packages nm with
      | none => .ok packages
      | some wp =>
          match bindEntityGo sub fp d wp.parameters wp.annots with
          | .ok (ps, as) =>
              bindPackagesScan sub fp rest
                (updateAssoc packages nm { wp with parameters := ps, annots := as })
          | .error e => .error e := rfl

/-- C8: During override merge, when the scan of deployment-descriptor
packages reaches a package name with no matching package in the composed
entity set, a name-mismatch warning is emitted and the scan over all
remaining deployment packages terminates (not only that package is
skipped); the merge call then returns success with no further
modification to the entity set.  (The warning itself is a print, outside
the embedded state; the theorem shows the scan of `pre ++ bad :: post`
behaves exactly like the scan of `pre` alone — all remaining packages,
`bad` and `post` alike, are dropped — and that reaching the mismatch
directly yields success with the entity set untouched.) -/
theorem c8_scan_break (sub : EnvSub) (fp : Str)
    (pre post : List (Str × DeplEntity)) (badName : Str) (dp : DeplEntity)
    (packages : List (Str × WhiskPackage))
    (hbad : lookupAssoc packages badName = none) :
    bindPackagesScan sub fp (pre ++ (badName, dp) :: post) packages =
      bindPackagesScan sub fp pre packages ∧
    bindPackagesScan sub fp ((badName, dp) :: post) packages = .ok packages := by
  have main : ∀ (pre : List (Str × DeplEntity))
      (packages : List (Str × WhiskPackage)),
      lookupAssoc packages badName = none →
      bindPackagesScan sub fp (pre ++ (badName, dp) :: post) packages =
        bindPackagesScan sub fp pre packages := by
    intro pre
    induction pre with
    | nil =>
        intro packages hb
        rw [List.nil_append, bindPackagesScan_cons, hb]
        rfl
    | cons hd rest ih =>
        intro packages hb
        obtain ⟨nm, d⟩ := hd
        rw [List.cons_append, bindPackagesScan_cons, bindPackagesScan_cons]
        cases hl : lookupAssoc packages nm with
        | none => rfl
        | some wp =>
            dsimp only
            cases hbind : bindEntityGo sub fp d wp.parameters wp.annots with
            | ok pa =>
                obtain ⟨ps, as⟩ := pa
                have hb' : lookupAssoc
                    (updateAssoc packages nm
                      { wp with parameters := ps, annots := as }) badName = none := by
                  rw [lookupAssoc_eq_none_iff, updateAssoc_keys]
                  exact (lookupAssoc_eq_none_iff packages badName).mp hb
                exact ih _ hb'
            | error e => rfl
  refine ⟨main pre packages hbad, ?_⟩
  have h0 := main [] packages hbad
  rw [List.nil_append] at h0
  exact h0

/-- Witness for C8: a deployment scan whose second entry has no matching
package; the third entry is never reached and the scan succeeds having
merged only the first entry. -/
theorem c8_scan_break_witness :
    lookupAssoc [("p".toList, (⟨"p".toList, [], false, [], []⟩ : WhiskPackage))]
        "q".toList = none ∧
    bindPackagesScan id "deployment.yml".toList
        ([(("p".toList : Str), (⟨[(("k".toList : Str), Value.vint 3)], []⟩ : DeplEntity))] ++
          ("q".toList, (⟨[], []⟩ : DeplEntity)) ::
            [("p".toList, (⟨[(("k2".toList : Str), Value.vint 4)], []⟩ : DeplEntity))])
        [("p".toList, (⟨"p".toList, [], false, [], []⟩ : WhiskPackage))] =
      bindPackagesScan id "deployment.yml".toList
        [(("p".toList : Str), (⟨[(("k".toList : Str), Value.vint 3)], []⟩ : DeplEntity))]
        [("p".toList, (⟨"p".toList, [], false, [], []⟩ : WhiskPackage))] := by
  refine ⟨by decide, ?_⟩
  exact (c8_scan_break id "deployment.yml".toList
    [(("p".toList : Str), (⟨[(("k".toList : Str), Value.vint 3)], []⟩ : DeplEntity))]
    [("p".toList, (⟨[(("k2".toList : Str), Value.vint 4)], []⟩ : DeplEntity))]
    "q".toList (⟨[], []⟩ : DeplEntity)
    [("p".toList, (⟨"p".toList, [], false, [], []⟩ : WhiskPackage))]
    (by decide)).1

end Wskdeploy

namespace Wskdeploy

/-! ### Action composer inversion (claims C3, C4, C9, C10) -/

theorem aliasLocation_webexport (a : GoAction) :
    (aliasLocation a).webexport = a.webexport := by
  unfold aliasLocation; split <;> rfl

theorem aliasLocation_annots (a : GoAction) :
    (aliasLocation a).annots = a.annots := by
  unfold aliasLocation; split <;> rfl

theorem aliasLocation_runtime (a : GoAction) :
    (aliasLocation a).runtime = a.runtime := by
  unfold aliasLocation; split <;> rfl

theorem aliasLocation_name (a : GoAction) :
    (aliasLocation a).name = a.name := by
  unfold aliasLocation; split <;> rfl

theorem aliasLocation_of_function_ne (a : GoAction) (h : a.function ≠ []) :
    aliasLocation a = a := by
  unfold aliasLocation
  rw [if_neg]
  intro hc
  exact h hc.1

theorem WebAction_yes (x : KeyValueArr) (fetch : Bool) :
    WebAction "yes".toList (some x) fetch = .ok (some (addWebAnnotations x)) := by
  unfold WebAction
  rw [if_pos (Or.inl (by decide))]
  exact webActionAnnotations_some fetch x addWebAnnotations

/-- Success inversion for one `ComposeActions` iteration: a produced
record carries the map key as action name, the owning package name,
publish `false`, and — when web export is declared "true" — exactly the
web transform of the user-declared annotations. -/
theorem composeOneAction_ok_spec (cfg : Config) (mp pkg : Str)
    (ma : KeyValue) (ext0 key : Str) (a : GoAction) (ext' : Str)
    (r : ActionRecord)
    (h : composeOneAction cfg mp pkg ma ext0 key a = .ok (ext', r)) :
    r.action.publish = false ∧ r.action.name = key ∧ r.packagename = pkg ∧
    (a.webexport = "true".toList →
      r.action.annots = addWebAnnotations (resolveAnnots cfg a.annots)) := by
  unfold composeOneAction at h
  dsimp only at h
  set A := aliasLocation { a with name := key } with hA
  cases hsrc : sourceStep cfg mp ext0 A with
  | error e => rw [hsrc] at h; cases h
  | ok triple =>
      obtain ⟨ext1, exec0, function'⟩ := triple
      rw [hsrc] at h
      dsimp only at h
      cases hrt : runtimeStep cfg ((splitChar '/' mp).getLastD []) ext1 A exec0 with
      | error e => rw [hrt] at h; cases h
      | ok exec1 =>
          rw [hrt] at h
          dsimp only at h
          cases hin : resolveKVs cfg mp A.inputs with
          | error e => rw [hin] at h; cases h
          | ok params =>
              rw [hin] at h
              dsimp only at h
              cases hout : resolveKVs cfg mp A.outputs with
              | error e => rw [hout] at h; cases h
              | ok outs =>
                  rw [hout] at h
                  dsimp only at h
                  by_cases hweb : A.webexport = "true".toList
                  · rw [if_pos hweb, WebAction_yes] at h
                    cases h
                    refine ⟨rfl, rfl, rfl, fun _ => ?_⟩
                    show Option.getD (some (addWebAnnotations
                        (resolveAnnots cfg A.annots))) [] = _
                    rw [hA, aliasLocation_annots]
                    rfl
                  · rw [if_neg hweb] at h
                    cases h
                    refine ⟨rfl, rfl, rfl, fun hw => ?_⟩
                    exact absurd (by rw [hA, aliasLocation_webexport]; exact hw) hweb

end Wskdeploy

namespace Wskdeploy

theorem mem_keys_addWebAnnotations (k : Str) (x : KeyValueArr)
    (h : k ∈ (addWebAnnotations x).map KeyValue.key) :
    k ∈ x.map KeyValue.key ∨ isWebKey k := by
  rw [addWebAnnotations_eq, List.map_append, List.mem_append] at h
  rcases h with h | h
  · rcases List.mem_map.mp h with ⟨kv, hkv, rfl⟩
    exact Or.inl (List.mem_map.mpr ⟨kv, List.mem_of_mem_filter hkv, rfl⟩)
  · rcases List.mem_map.mp h with ⟨kv, hkv, rfl⟩
    simp only [List.mem_cons, List.not_mem_nil, or_false] at hkv
    rcases hkv with h | h | h <;> subst h <;> exact Or.inr (by simp [isWebKey])

/-- C10: For every action whose declared web-export mode is the literal
string "true", the composed action's final annotation list is the
web-export transform applied to the user-declared annotations only: any
annotation appended before the web-export step but outside the
user-declared annotation map — in particular the managed annotation
appended when managed-deployment mode is active — is absent from the
composed action's annotations. -/
theorem c10_webexport_drops_managed (cfg : Config) (mp pkg : Str)
    (ma : KeyValue) (ext0 key : Str) (a : GoAction) (ext' : Str)
    (r : ActionRecord)
    (hw : a.webexport = "true".toList)
    (h : composeOneAction cfg mp pkg ma ext0 key a = .ok (ext', r)) :
    r.action.annots = addWebAnnotations (resolveAnnots cfg a.annots) ∧
    (ma.key ∉ (resolveAnnots cfg a.annots).map KeyValue.key →
     ¬ isWebKey ma.key →
     ma.key ∉ r.action.annots.map KeyValue.key) := by
  have hann := (composeOneAction_ok_spec cfg mp pkg ma ext0 key a ext' r h).2.2.2 hw
  refine ⟨hann, fun hmem hweb hc => ?_⟩
  rw [hann] at hc
  rcases mem_keys_addWebAnnotations ma.key (resolveAnnots cfg a.annots) hc with
    hk | hk
  · exact hmem hk
  · exact hweb hk

/-- Witness for C10: managed mode is active, yet the composed annotations
of a web-exported action hold only the transform of the user-declared
`a=1` — the managed key is gone. -/
theorem c10_webexport_drops_managed_witness :
    composeOneAction { cfgEx with managed := true } "m.yml".toList
        "pkg".toList ⟨"managed".toList, .vbool true⟩ [] "w".toList
        { annots := [(("a".toList : Str), Value.vint 1)],
          webexport := "true".toList } =
      .ok ([], ⟨⟨"w".toList, [], false, ⟨[], none, [], []⟩, [],
        [⟨"a".toList, .vint 1⟩, ⟨WEB_EXPORT_ANNOT, .vbool true⟩,
         ⟨RAW_HTTP_ANNOT, .vbool false⟩, ⟨FINAL_ANNOT, .vbool true⟩],
        none⟩, "pkg".toList, []⟩) ∧
    ([⟨"a".toList, .vint 1⟩, ⟨WEB_EXPORT_ANNOT, .vbool true⟩,
      ⟨RAW_HTTP_ANNOT, .vbool false⟩, ⟨FINAL_ANNOT, .vbool true⟩] : KeyValueArr) =
      addWebAnnotations (resolveAnnots { cfgEx with managed := true }
        [(("a".toList : Str), Value.vint 1)]) ∧
    "managed".toList ∉
      ([⟨"a".toList, .vint 1⟩, ⟨WEB_EXPORT_ANNOT, .vbool true⟩,
        ⟨RAW_HTTP_ANNOT, .vbool false⟩, ⟨FINAL_ANNOT, .vbool true⟩] : KeyValueArr).map
        KeyValue.key := by
  have h : composeOneAction { cfgEx with managed := true } "m.yml".toList
      "pkg".toList ⟨"managed".toList, .vbool true⟩ [] "w".toList
      { annots := [(("a".toList : Str), Value.vint 1)],
        webexport := "true".toList } =
      .ok ([], ⟨⟨"w".toList, [], false, ⟨[], none, [], []⟩, [],
        [⟨"a".toList, .vint 1⟩, ⟨WEB_EXPORT_ANNOT, .vbool true⟩,
         ⟨RAW_HTTP_ANNOT, .vbool false⟩, ⟨FINAL_ANNOT, .vbool true⟩],
        none⟩, "pkg".toList, []⟩) := by decide
  have hc := c10_webexport_drops_managed { cfgEx with managed := true }
    "m.yml".toList "pkg".toList ⟨"managed".toList, .vbool true⟩ [] "w".toList
    { annots := [(("a".toList : Str), Value.vint 1)],
      webexport := "true".toList } [] _ rfl h
  exact ⟨h, hc.1, hc.2 (by decide) (by decide)⟩

end Wskdeploy

namespace Wskdeploy

theorem composeActionsAux_cons (cfg : Config) (mp pkg : Str) (ma : KeyValue)
    (ext : Str) (acc : List ActionRecord) (k : Str) (a : GoAction)
    (rest : List (Str × GoAction)) :
    composeActionsAux cfg mp pkg ma ext acc ((k, a) :: rest) =
      match composeOneAction cfg mp pkg ma ext k a with
      | .ok (ext', r) => composeActionsAux cfg mp pkg ma ext' (acc ++ [r]) rest
      | .error e => .error e := rfl

theorem composeActionsAux_publish (cfg : Config) (mp pkg : Str)
    (ma : KeyValue) :
    ∀ (acts : List (Str × GoAction)) (ext : Str) (acc recs : List ActionRecord),
      (∀ r ∈ acc, r.action.publish = false) →
      composeActionsAux cfg mp pkg ma ext acc acts = .ok recs →
      ∀ r ∈ recs, r.action.publish = false := by
  intro acts
  induction acts with
  | nil =>
      intro ext acc recs hacc h
      cases h
      exact hacc
  | cons ka rest ih =>
      intro ext acc recs hacc h
      obtain ⟨k, a⟩ := ka
      rw [composeActionsAux_cons] at h
      cases hone : composeOneAction cfg mp pkg ma ext k a with
      | error e => rw [hone] at h; cases h
      | ok pr =>
          obtain ⟨ext1, r1⟩ := pr
          rw [hone] at h
          have hr1 := (composeOneAction_ok_spec cfg mp pkg ma ext k a ext1 r1 hone).1
          refine ih ext1 (acc ++ [r1]) recs ?_ h
          intro r hr
          rcases List.mem_append.mp hr with hr | hr
          · exact hacc r hr
          · rw [List.mem_singleton.mp hr]
            exact hr1

theorem ComposePackage_ok_publish (cfg : Config) (pkg : GoPackage)
    (name fp : Str) (ma : KeyValue) (wp : WhiskPackage)
    (h : ComposePackage cfg pkg name fp ma = .ok wp) : wp.publish = false := by
  unfold ComposePackage at h
  cases hin : resolveKVs cfg fp pkg.inputs with
  | error e => rw [hin] at h; cases h
  | ok params =>
      rw [hin] at h
      dsimp only at h
      cases h
      rfl

theorem composeOneTrigger_ok_publish (cfg : Config) (fp : Str)
    (ma : KeyValue) (t : GoTrigger) (w : WhiskTrigger)
    (h : composeOneTrigger cfg fp ma t = .ok w) : w.publish = false := by
  unfold composeOneTrigger at h
  cases hin : resolveKVs cfg fp t.inputs with
  | error e =>
      rw [hin] at h
      cases h
  | ok params =>
      rw [hin] at h
      dsimp only at h
      cases h
      rfl

/-- C9: Every platform entity produced by composition — package, plain
action, sequence action, and trigger — has its publish flag initialized
to false. -/
theorem c9_publish_false (cfg : Config) :
    (∀ pkg name fp ma wp, ComposePackage cfg pkg name fp ma = .ok wp →
       wp.publish = false) ∧
    (∀ mp acts pkg ma recs, ComposeActions cfg mp acts pkg ma = .ok recs →
       ∀ r ∈ recs, r.action.publish = false) ∧
    (∀ ns seqs pkg ma r, r ∈ ComposeSequences cfg ns seqs pkg ma →
       r.action.publish = false) ∧
    (∀ fp trs ma ws, ComposeTriggers cfg fp trs ma = .ok ws →
       ∀ w ∈ ws, w.publish = false) := by
  refine ⟨fun pkg name fp ma wp h => ComposePackage_ok_publish cfg pkg name fp ma wp h,
    fun mp acts pkg ma recs h =>
      composeActionsAux_publish cfg mp pkg ma acts [] [] recs (by simp) h,
    fun ns seqs pkg ma r hr => ?_, fun fp trs ma => ?_⟩
  · rcases List.mem_map.mp hr with ⟨ks, _, rfl⟩
    rfl
  · induction trs with
    | nil =>
        intro ws h
        cases h
        intro w hw
        cases hw
    | cons t rest ih =>
        intro ws h
        unfold ComposeTriggers at h
        cases hone : composeOneTrigger cfg fp ma t with
        | error e => rw [hone] at h; cases h
        | ok w1 =>
            rw [hone] at h
            dsimp only at h
            cases hrest : ComposeTriggers cfg fp rest ma with
            | error e => rw [hrest] at h; cases h
            | ok ws1 =>
                rw [hrest] at h
                dsimp only at h
                cases h
                intro w hw
                rcases List.mem_cons.mp hw with hw | hw
                · rw [hw]
                  exact composeOneTrigger_ok_publish cfg fp ma t w1 hone
                · exact ih ws1 hrest w hw

/-- Witness for C9: a concrete package, action, sequence and trigger all
compose with publish=false. -/
theorem c9_publish_false_witness :
    (ComposePackage cfgEx {} "p".toList "m.yml".toList
        ⟨"managed".toList, .vbool true⟩ =
      .ok ⟨"p".toList, [], false, [], []⟩ ∧ (false = false)) ∧
    (ComposeActions cfgEx "m.yml".toList
        [("j".toList, { function := "f.js".toList })] "pkg".toList
        ⟨"managed".toList, .vbool true⟩ =
      .ok [⟨⟨"j".toList, [], false,
        ⟨"nodejs:6".toList, some "CODE".toList, [], []⟩, [], [], none⟩,
        "pkg".toList, "f.js".toList⟩] ∧
      ∀ r ∈ [(⟨⟨"j".toList, [], false,
        ⟨"nodejs:6".toList, some "CODE".toList, [], []⟩, [], [], none⟩,
        "pkg".toList, "f.js".toList⟩ : ActionRecord)], r.action.publish = false) ∧
    (∀ r ∈ ComposeSequences cfgEx "n".toList
        [("s".toList, { actions := "a".toList })] "p".toList
        ⟨"managed".toList, .vbool true⟩, r.action.publish = false) ∧
    (ComposeTriggers cfgEx "m.yml".toList [{ name := "t".toList }]
        ⟨"managed".toList, .vbool true⟩ =
      .ok [⟨"t".toList, [], false, [], []⟩] ∧
      ∀ w ∈ [(⟨"t".toList, [], false, [], []⟩ : WhiskTrigger)], w.publish = false) := by
  have hp : ComposePackage cfgEx {} "p".toList "m.yml".toList
      ⟨"managed".toList, .vbool true⟩ = .ok ⟨"p".toList, [], false, [], []⟩ := by
    decide
  have ha : ComposeActions cfgEx "m.yml".toList
      [("j".toList, { function := "f.js".toList })] "pkg".toList
      ⟨"managed".toList, .vbool true⟩ =
      .ok [⟨⟨"j".toList, [], false,
        ⟨"nodejs:6".toList, some "CODE".toList, [], []⟩, [], [], none⟩,
        "pkg".toList, "f.js".toList⟩] := by decide
  have ht : ComposeTriggers cfgEx "m.yml".toList [{ name := "t".toList }]
      ⟨"managed".toList, .vbool true⟩ =
      .ok [⟨"t".toList, [], false, [], []⟩] := by decide
  have hc := c9_publish_false cfgEx
  refine ⟨⟨hp, ?_⟩, ⟨ha, hc.2.1 _ _ _ _ _ ha⟩, fun r hr => ?_, ht, hc.2.2.2 _ _ _ _ ht⟩
  · have := hc.1 {} "p".toList "m.yml".toList ⟨"managed".toList, .vbool true⟩ _ hp
    exact this ▸ rfl
  · exact hc.2.2.1 "n".toList [("s".toList, { actions := "a".toList })]
      "p".toList ⟨"managed".toList, .vbool true⟩ r hr

end Wskdeploy

namespace Wskdeploy

theorem sourceStep_file_eq (cfg : Config) (mp ext0 : Str) (g : GoAction)
    (hfun : g.function ≠ [])
    (hdir : cfg.isDirectory (actionFilePath mp g.function) = false) :
    sourceStep cfg mp ext0 g =
      (if cfg.defaultRT (cfg.extRuntime (extOf (actionFilePath mp g.function))) = [] ∧
          g.runtime = [] ∧
          extOf (actionFilePath mp g.function) ≠ ZIP_FILE_EXTENSION then
        .error (.invalidRuntime MSG_DISCOVER_RUNTIME
          ((splitChar '/' mp).getLastD []) g.name NOT_SPECIFIED cfg.supported)
      else
        match cfg.readFile (actionFilePath mp g.function) with
        | .error e => .error e
        | .ok dat =>
            if extOf (actionFilePath mp g.function) = ZIP_FILE_EXTENSION ∧
                g.runtime = [] then
              .error (.invalidRuntime MSG_ZIP_RUNTIME_MISSING
                ((splitChar '/' mp).getLastD []) g.name NOT_SPECIFIED
                cfg.supported)
            else
              .ok (extOf (actionFilePath mp g.function),
                { kind := cfg.defaultRT (cfg.extRuntime
                    (extOf (actionFilePath mp g.function))),
                  code := some (if extOf (actionFilePath mp g.function) =
                        ZIP_FILE_EXTENSION ∨
                      extOf (actionFilePath mp g.function) = JAR_FILE_EXTENSION
                    then cfg.base64 dat else dat) },
                actionFilePath mp g.function)) := by
  unfold sourceStep
  rw [if_pos hfun]
  dsimp only
  rw [hdir]
  rfl

end Wskdeploy

namespace Wskdeploy

/-- C3: For every single-file action whose source file has the archive
(.zip) extension: if no explicit runtime is declared, composition of the
whole manifest fails with an InvalidRuntimeError; if an explicit runtime
that is in the supported-runtimes list is declared, the composed action's
executable kind equals the declared runtime verbatim; if the declared
runtime is not supported, composition fails with an InvalidRuntimeError. -/
theorem c3_zip_runtime (cfg : Config) (mp key pkg : Str) (ma : KeyValue)
    (a : GoAction) (rest : List (Str × GoAction))
    (hfun : a.function ≠ [])
    (hdir : cfg.isDirectory (actionFilePath mp a.function) = false)
    (hext : extOf (actionFilePath mp a.function) = ZIP_FILE_EXTENSION)
    (hread : ∃ dat, cfg.readFile (actionFilePath mp a.function) = .ok dat) :
    (a.runtime = [] →
      isInvalidRuntimeErr (ComposeActions cfg mp ((key, a) :: rest) pkg ma) = true) ∧
    (a.runtime ≠ [] → cfg.supported.contains a.runtime = true →
      ∀ recs, ComposeActions cfg mp [(key, a)] pkg ma = .ok recs →
        ∃ r, recs = [r] ∧ r.action.exec.kind = a.runtime) ∧
    (a.runtime ≠ [] → cfg.supported.contains a.runtime = false →
      isInvalidRuntimeErr (ComposeActions cfg mp ((key, a) :: rest) pkg ma) = true) := by
  obtain ⟨dat, hread⟩ := hread
  have hAeq : aliasLocation { a with name := key } = { a with name := key } :=
    aliasLocation_of_function_ne _ hfun
  have hsrc : ∀ ext0, sourceStep cfg mp ext0 (aliasLocation { a with name := key }) =
      (if a.runtime = [] then
        .error (.invalidRuntime MSG_ZIP_RUNTIME_MISSING
          ((splitChar '/' mp).getLastD []) key NOT_SPECIFIED cfg.supported)
      else
        .ok (ZIP_FILE_EXTENSION,
          { kind := cfg.defaultRT (cfg.extRuntime ZIP_FILE_EXTENSION),
            code := some (cfg.base64 dat) },
          actionFilePath mp a.function)) := by
    intro ext0
    rw [hAeq]
    rw [sourceStep_file_eq cfg mp ext0 { a with name := key } hfun hdir]
    show (if cfg.defaultRT (cfg.extRuntime (extOf (actionFilePath mp a.function))) = [] ∧
        a.runtime = [] ∧ extOf (actionFilePath mp a.function) ≠ ZIP_FILE_EXTENSION then _
      else _) = _
    rw [hext]
    rw [if_neg (by intro hc; exact hc.2.2 rfl), hread]
    dsimp only
    by_cases hrt : a.runtime = []
    · rw [if_pos hrt, if_pos (show ZIP_FILE_EXTENSION = ZIP_FILE_EXTENSION ∧
        ({ a with name := key } : GoAction).runtime = [] from ⟨rfl, hrt⟩)]
    · rw [if_neg hrt, if_neg
        (fun hc => hrt hc.2 : ¬ (ZIP_FILE_EXTENSION = ZIP_FILE_EXTENSION ∧
          ({ a with name := key } : GoAction).runtime = [])),
        if_pos (Or.inl rfl : ZIP_FILE_EXTENSION = ZIP_FILE_EXTENSION ∨
          ZIP_FILE_EXTENSION = JAR_FILE_EXTENSION)]
  refine ⟨fun hrt => ?_, fun hrt hsup recs h => ?_, fun hrt hsup => ?_⟩
  · -- no runtime declared: the zip error aborts the whole compose call
    have hone : composeOneAction cfg mp pkg ma [] key a =
        .error (.invalidRuntime MSG_ZIP_RUNTIME_MISSING
          ((splitChar '/' mp).getLastD []) key NOT_SPECIFIED cfg.supported) := by
      unfold composeOneAction
      dsimp only
      rw [hsrc [], if_pos hrt]
    unfold ComposeActions
    rw [composeActionsAux_cons, hone]
    rfl
  · -- supported runtime: taken verbatim as the exec kind
    have hrtstep : runtimeStep cfg ((splitChar '/' mp).getLastD [])
        ZIP_FILE_EXTENSION (aliasLocation { a with name := key })
        { kind := cfg.defaultRT (cfg.extRuntime ZIP_FILE_EXTENSION),
          code := some (cfg.base64 dat) } =
        .ok { kind := a.runtime, code := some (cfg.base64 dat) } := by
      unfold runtimeStep
      rw [hAeq]
      rw [if_pos (show ({ a with name := key } : GoAction).runtime ≠ [] from hrt)]
      show (if cfg.supported.contains a.runtime = true then _ else _) = _
      rw [hsup]
      rw [if_pos rfl, if_pos rfl]
    unfold ComposeActions at h
    rw [composeActionsAux_cons] at h
    unfold composeOneAction at h
    dsimp only at h
    rw [hsrc [], if_neg hrt] at h
    dsimp only at h
    rw [hrtstep] at h
    dsimp only at h
    cases hin : resolveKVs cfg mp (aliasLocation { a with name := key }).inputs with
    | error e => rw [hin] at h; cases h
    | ok params =>
        rw [hin] at h
        dsimp only at h
        cases hout : resolveKVs cfg mp (aliasLocation { a with name := key }).outputs with
        | error e => rw [hout] at h; cases h
        | ok outs =>
            rw [hout] at h
            dsimp only at h
            by_cases hweb : (aliasLocation { a with name := key }).webexport = "true".toList
            · rw [if_pos hweb, WebAction_yes] at h
              dsimp only at h
              cases h
              refine ⟨_, rfl, ?_⟩
              dsimp only
              split <;> rfl
            · rw [if_neg hweb] at h
              dsimp only at h
              cases h
              refine ⟨_, rfl, ?_⟩
              dsimp only
              split <;> rfl
  · -- unsupported runtime on a zip action: fatal
    have hrtstep : runtimeStep cfg ((splitChar '/' mp).getLastD [])
        ZIP_FILE_EXTENSION (aliasLocation { a with name := key })
        { kind := cfg.defaultRT (cfg.extRuntime ZIP_FILE_EXTENSION),
          code := some (cfg.base64 dat) } =
        .error (.invalidRuntime MSG_ZIP_RUNTIME_UNSUPPORTED
          ((splitChar '/' mp).getLastD []) key a.runtime cfg.supported) := by
      unfold runtimeStep
      rw [hAeq]
      rw [if_pos (show ({ a with name := key } : GoAction).runtime ≠ [] from hrt)]
      show (if cfg.supported.contains a.runtime = true then _ else _) = _
      rw [hsup]
      show (if (false = true) then _ else _) = _
      rw [if_neg (by simp), if_pos rfl]
    have hone : composeOneAction cfg mp pkg ma [] key a =
        .error (.invalidRuntime MSG_ZIP_RUNTIME_UNSUPPORTED
          ((splitChar '/' mp).getLastD []) key a.runtime cfg.supported) := by
      unfold composeOneAction
      dsimp only
      rw [hsrc [], if_neg hrt]
      dsimp only
      rw [hrtstep]
    unfold ComposeActions
    rw [composeActionsAux_cons, hone]
    rfl

end Wskdeploy

namespace Wskdeploy

/-- Witness for C3: a zip action with supported runtime "python:2"
composes with that exact kind. -/
theorem c3_zip_runtime_witness :
    ((("act.zip".toList : Str) ≠ []) ∧
     cfgEx.isDirectory (actionFilePath "m.yml".toList "act.zip".toList) = false ∧
     extOf (actionFilePath "m.yml".toList "act.zip".toList) = ZIP_FILE_EXTENSION ∧
     cfgEx.readFile (actionFilePath "m.yml".toList "act.zip".toList) =
       .ok "CODE".toList ∧
     ("python:2".toList : Str) ≠ [] ∧
     cfgEx.supported.contains "python:2".toList = true) ∧
    ∃ r, [(⟨⟨"z".toList, [], false,
        ⟨"python:2".toList, some "b64:CODE".toList, [], []⟩, [], [], none⟩,
        "pkg".toList, "act.zip".toList⟩ : ActionRecord)] = [r] ∧
      r.action.exec.kind = "python:2".toList := by
  refine ⟨by decide, ?_⟩
  have h : ComposeActions cfgEx "m.yml".toList
      [("z".toList, { function := "act.zip".toList, runtime := "python:2".toList })]
      "pkg".toList ⟨"managed".toList, .vbool true⟩ =
      .ok [⟨⟨"z".toList, [], false,
        ⟨"python:2".toList, some "b64:CODE".toList, [], []⟩, [], [], none⟩,
        "pkg".toList, "act.zip".toList⟩] := by decide
  exact (c3_zip_runtime cfgEx "m.yml".toList "z".toList "pkg".toList
    ⟨"managed".toList, .vbool true⟩
    { function := "act.zip".toList, runtime := "python:2".toList } []
    (by decide) (by decide) (by decide) ⟨"CODE".toList, by decide⟩).2.1
    (by decide) (by decide) _ h

end Wskdeploy

namespace Wskdeploy

/-- C4: For every single-file action with a file extension present in the
static extension-to-runtime table and no declared runtime, the composed
action's executable kind equals the runtime kind given by that static
mapping; for every action whose extension is not in the table and which
declares no runtime, composition of the whole manifest fails with an
InvalidRuntimeError. -/
theorem c4_ext_table_runtime (cfg : Config) (mp key pkg : Str)
    (ma : KeyValue) (a : GoAction) (rest : List (Str × GoAction))
    (hfun : a.function ≠ [])
    (hdir : cfg.isDirectory (actionFilePath mp a.function) = false)
    (hrt : a.runtime = []) :
    (cfg.defaultRT (cfg.extRuntime (extOf (actionFilePath mp a.function))) ≠ [] →
      ∀ recs, ComposeActions cfg mp [(key, a)] pkg ma = .ok recs →
        ∃ r, recs = [r] ∧ r.action.exec.kind =
          cfg.defaultRT (cfg.extRuntime (extOf (actionFilePath mp a.function)))) ∧
    (cfg.defaultRT (cfg.extRuntime (extOf (actionFilePath mp a.function))) = [] →
      (extOf (actionFilePath mp a.function) = ZIP_FILE_EXTENSION →
        ∃ dat, cfg.readFile (actionFilePath mp a.function) = .ok dat) →
      isInvalidRuntimeErr (ComposeActions cfg mp ((key, a) :: rest) pkg ma) = true) := by
  have hAeq : aliasLocation { a with name := key } = { a with name := key } :=
    aliasLocation_of_function_ne _ hfun
  have hrtstep0 : ∀ ext1 exec0, runtimeStep cfg ((splitChar '/' mp).getLastD [])
      ext1 ({ a with name := key } : GoAction) exec0 = .ok exec0 := by
    intro ext1 exec0
    unfold runtimeStep
    rw [if_neg (show ¬ (({ a with name := key } : GoAction).runtime ≠ []) from
      fun hc => hc hrt)]
  constructor
  · intro hk recs h
    unfold ComposeActions at h
    rw [composeActionsAux_cons] at h
    unfold composeOneAction at h
    dsimp only at h
    rw [hAeq, sourceStep_file_eq cfg mp [] { a with name := key } hfun hdir] at h
    dsimp only at h
    rw [if_neg (show ¬ (cfg.defaultRT (cfg.extRuntime
        (extOf (actionFilePath mp a.function))) = [] ∧ a.runtime = [] ∧
        extOf (actionFilePath mp a.function) ≠ ZIP_FILE_EXTENSION) from
      fun hc => hk hc.1)] at h
    cases hrd : cfg.readFile (actionFilePath mp a.function) with
    | error e => rw [hrd] at h; cases h
    | ok dat =>
        rw [hrd] at h
        dsimp only at h
        by_cases hz : extOf (actionFilePath mp a.function) = ZIP_FILE_EXTENSION
        · rw [if_pos ⟨hz, hrt⟩] at h
          cases h
        · rw [if_neg (show ¬ (extOf (actionFilePath mp a.function) =
              ZIP_FILE_EXTENSION ∧ a.runtime = []) from fun hc => hz hc.1)] at h
          dsimp only at h
          rw [hrtstep0] at h
          dsimp only at h
          cases hin : resolveKVs cfg mp a.inputs with
          | error e => rw [hin] at h; cases h
          | ok params =>
              rw [hin] at h
              dsimp only at h
              cases hout : resolveKVs cfg mp a.outputs with
              | error e => rw [hout] at h; cases h
              | ok outs =>
                  rw [hout] at h
                  dsimp only at h
                  by_cases hweb : a.webexport = "true".toList
                  · rw [if_pos hweb, WebAction_yes] at h
                    dsimp only at h
                    cases h
                    refine ⟨_, rfl, ?_⟩
                    dsimp only
                    split <;> rfl
                  · rw [if_neg hweb] at h
                    dsimp only at h
                    cases h
                    refine ⟨_, rfl, ?_⟩
                    dsimp only
                    split <;> rfl
  · intro hk hread
    by_cases hz : extOf (actionFilePath mp a.function) = ZIP_FILE_EXTENSION
    · obtain ⟨dat, hrd⟩ := hread hz
      have hone : composeOneAction cfg mp pkg ma [] key a =
          .error (.invalidRuntime MSG_ZIP_RUNTIME_MISSING
            ((splitChar '/' mp).getLastD []) key NOT_SPECIFIED cfg.supported) := by
        unfold composeOneAction
        dsimp only
        rw [hAeq, sourceStep_file_eq cfg mp [] { a with name := key } hfun hdir]
        dsimp only
        rw [if_neg (show ¬ (cfg.defaultRT (cfg.extRuntime
            (extOf (actionFilePath mp a.function))) = [] ∧ a.runtime = [] ∧
            extOf (actionFilePath mp a.function) ≠ ZIP_FILE_EXTENSION) from
          fun hc => hc.2.2 hz), hrd]
        dsimp only
        rw [if_pos ⟨hz, hrt⟩]
      unfold ComposeActions
      rw [composeActionsAux_cons, hone]
      rfl
    · have hone : composeOneAction cfg mp pkg ma [] key a =
          .error (.invalidRuntime MSG_DISCOVER_RUNTIME
            ((splitChar '/' mp).getLastD []) key NOT_SPECIFIED cfg.supported) := by
        unfold composeOneAction
        dsimp only
        rw [hAeq, sourceStep_file_eq cfg mp [] { a with name := key } hfun hdir]
        dsimp only
        rw [if_pos ⟨hk, hrt, hz⟩]
      unfold ComposeActions
      rw [composeActionsAux_cons, hone]
      rfl

/-- Witness for C4: a `.js` action with no declared runtime composes with
the table-inferred kind "nodejs:6". -/
theorem c4_ext_table_runtime_witness :
    ((("f.js".toList : Str) ≠ []) ∧
     cfgEx.isDirectory (actionFilePath "m.yml".toList "f.js".toList) = false ∧
     (([] : Str) = []) ∧
     cfgEx.defaultRT (cfgEx.extRuntime
       (extOf (actionFilePath "m.yml".toList "f.js".toList))) ≠ []) ∧
    ∃ r, [(⟨⟨"j".toList, [], false,
        ⟨"nodejs:6".toList, some "CODE".toList, [], []⟩, [], [], none⟩,
        "pkg".toList, "f.js".toList⟩ : ActionRecord)] = [r] ∧
      r.action.exec.kind = cfgEx.defaultRT (cfgEx.extRuntime
        (extOf (actionFilePath "m.yml".toList "f.js".toList))) := by
  refine ⟨by decide, ?_⟩
  have h : ComposeActions cfgEx "m.yml".toList
      [("j".toList, { function := "f.js".toList })] "pkg".toList
      ⟨"managed".toList, .vbool true⟩ =
      .ok [⟨⟨"j".toList, [], false,
        ⟨"nodejs:6".toList, some "CODE".toList, [], []⟩, [], [], none⟩,
        "pkg".toList, "f.js".toList⟩] := by decide
  exact (c4_ext_table_runtime cfgEx "m.yml".toList "j".toList "pkg".toList
    ⟨"managed".toList, .vbool true⟩ { function := "f.js".toList } []
    (by decide) (by decide) rfl).1 (by decide) _ h

end Wskdeploy

namespace Wskdeploy

/-! ### Sequence path qualification (claim C7) -/

theorem splitChar_cons (c x : Char) (xs : Str) :
    splitChar c (x :: xs) =
      if x = c then [] :: splitChar c xs
      else
        match splitChar c xs with
        | [] => [[x]]
        | h :: t => (x :: h) :: t := rfl

theorem splitChar_ne_nil (c : Char) (s : Str) : splitChar c s ≠ [] := by
  cases s with
  | nil => simp [splitChar]
  | cons x xs =>
      rw [splitChar_cons]
      by_cases hx : x = c
      · simp [hx]
      · rw [if_neg hx]
        cases h : splitChar c xs <;> simp

theorem splitChar_sep_cons (c : Char) (xs : Str) :
    splitChar c (c :: xs) = [] :: splitChar c xs := by
  rw [splitChar_cons, if_pos rfl]

theorem splitChar_nin (c : Char) (xs : Str) (h : c ∉ xs) :
    splitChar c xs = [xs] := by
  induction xs with
  | nil => rfl
  | cons x t ih =>
      have hx : x ≠ c := fun hc => h (by rw [hc]; exact List.mem_cons_self _ _)
      have ht : c ∉ t := fun hc => h (List.mem_cons_of_mem _ hc)
      rw [splitChar_cons, if_neg hx, ih ht]

theorem splitChar_append_sep (c : Char) (xs ys : Str) (h : c ∉ xs) :
    splitChar c (xs ++ c :: ys) = xs :: splitChar c ys := by
  induction xs with
  | nil =>
      rw [List.nil_append]
      exact splitChar_sep_cons c ys
  | cons x t ih =>
      have hx : x ≠ c := fun hc => h (by rw [hc]; exact List.mem_cons_self _ _)
      have ht : c ∉ t := fun hc => h (List.mem_cons_of_mem _ hc)
      rw [List.cons_append, splitChar_cons, if_neg hx, ih ht]

theorem intercalate_cons₂ {α : Type} (s : List α) (x y : List α)
    (t : List (List α)) :
    List.intercalate s (x :: y :: t) = x ++ s ++ List.intercalate s (y :: t) := by
  simp [List.intercalate, List.intersperse]

theorem intercalate_singleton {α : Type} (s : List α) (x : List α) :
    List.intercalate s [x] = x := by
  simp [List.intercalate, List.intersperse]

theorem intercalate_splitChar (c : Char) (s : Str) :
    List.intercalate [c] (splitChar c s) = s := by
  induction s with
  | nil => simp [splitChar, intercalate_singleton]
  | cons x xs ih =>
      by_cases hx : x = c
      · subst hx
        rw [splitChar_sep_cons]
        cases h : splitChar x xs with
        | nil => exact absurd h (splitChar_ne_nil x xs)
        | cons hh t =>
            rw [h] at ih
            rw [intercalate_cons₂, List.nil_append, List.singleton_append, ih]
      · cases h : splitChar c xs with
        | nil => exact absurd h (splitChar_ne_nil c xs)
        | cons hh t =>
            have ihh : List.intercalate [c] (hh :: t) = xs := by rw [← h]; exact ih
            rw [splitChar_cons, if_neg hx, h]
            cases t with
            | nil =>
                rw [intercalate_singleton] at ihh
                rw [intercalate_singleton, ihh]
            | cons y t' =>
                rw [← ihh, intercalate_cons₂, intercalate_cons₂]
                simp [List.cons_append, List.append_assoc]

theorem splitChar_intercalate (c : Char) (segs : List Str)
    (hnin : ∀ x ∈ segs, c ∉ x) (hne : segs ≠ []) :
    splitChar c (List.intercalate [c] segs) = segs := by
  induction segs with
  | nil => exact absurd rfl hne
  | cons x t ih =>
      cases t with
      | nil =>
          rw [intercalate_singleton]
          exact splitChar_nin c x (hnin x (by simp))
      | cons y t' =>
          rw [intercalate_cons₂, List.append_assoc, List.singleton_append]
          rw [splitChar_append_sep c x _ (hnin x (by simp))]
          rw [ih (fun z hz => hnin z (List.mem_cons_of_mem _ hz)) (by simp)]

end Wskdeploy

namespace Wskdeploy

theorem cleanSegs_cons (r : Bool) (acc : List Str) (s : Str)
    (rest : List Str) :
    cleanSegs r acc (s :: rest) =
      if s = [] ∨ s = ".".toList then cleanSegs r acc rest
      else if s = "..".toList then
        match acc with
        | t :: acc' =>
            if t = "..".toList then cleanSegs r (s :: acc) rest
            else cleanSegs r acc' rest
        | [] => if r then cleanSegs r [] rest else cleanSegs r [s] rest
      else cleanSegs r (s :: acc) rest := rfl

theorem cleanSegs_all_simple (r : Bool) (segs : List Str) :
    ∀ acc, (∀ s ∈ segs, simpleSeg s) →
      cleanSegs r acc segs = acc.reverse ++ segs := by
  induction segs with
  | nil =>
      intro acc _
      show acc.reverse = acc.reverse ++ []
      rw [List.append_nil]
  | cons s t ih =>
      intro acc hs
      have hss := hs s (by simp)
      have hns : ¬ (s = [] ∨ s = ".".toList) := by
        rintro (hc | hc)
        · exact hss.1 hc
        · exact hss.2.2.1 hc
      rw [cleanSegs_cons, if_neg hns, if_neg hss.2.2.2,
        ih (s :: acc) (fun z hz => hs z (List.mem_cons_of_mem _ hz))]
      rw [List.reverse_cons, List.append_assoc, List.singleton_append]

theorem intercalate_ne_nil_of_head {α : Type} (s : List α) (x : List α)
    (t : List (List α)) (hx : x ≠ []) : List.intercalate s (x :: t) ≠ [] := by
  cases t with
  | nil => rw [intercalate_singleton]; exact hx
  | cons y t' =>
      rw [intercalate_cons₂]
      intro hc
      rcases List.append_eq_nil.mp hc with ⟨hc1, _⟩
      rcases List.append_eq_nil.mp hc1 with ⟨hc2, _⟩
      exact hx hc2

theorem head?_intercalate {α : Type} (s : List α) (x : List α)
    (t : List (List α)) (hx : x ≠ []) :
    (List.intercalate s (x :: t)).head? = x.head? := by
  cases t with
  | nil => rw [intercalate_singleton]
  | cons y t' =>
      rw [intercalate_cons₂, List.append_assoc]
      cases x with
      | nil => exact absurd rfl hx
      | cons a xs => rw [List.cons_append]; rfl

theorem pathClean_rooted (segs : List Str) (hne : segs ≠ [])
    (hs : ∀ s ∈ segs, simpleSeg s) :
    pathClean ('/' :: List.intercalate ['/'] segs) =
      '/' :: List.intercalate ['/'] segs := by
  obtain ⟨x, t, rfl⟩ : ∃ x t, segs = x :: t := by
    cases segs with
    | nil => exact absurd rfl hne
    | cons x t => exact ⟨x, t, rfl⟩
  have hx := hs x (by simp)
  unfold pathClean
  rw [if_neg (by simp)]
  dsimp only
  rw [splitChar_sep_cons,
    splitChar_intercalate '/' (x :: t) (fun z hz => (hs z hz).2.1) (by simp),
    cleanSegs_cons, if_pos (Or.inl rfl),
    cleanSegs_all_simple _ _ [] hs]
  rw [List.reverse_nil, List.nil_append]
  rw [if_pos (show ('/' :: List.intercalate ['/'] (x :: t)).head? = some '/'
    from rfl)]
  rw [show ("/".toList : Str) = ['/'] from rfl]
  rw [if_neg (intercalate_ne_nil_of_head ['/'] x t hx.1)]

theorem pathClean_plain (segs : List Str) (hne : segs ≠ [])
    (hs : ∀ s ∈ segs, simpleSeg s) :
    pathClean (List.intercalate ['/'] segs) = List.intercalate ['/'] segs := by
  obtain ⟨x, t, rfl⟩ : ∃ x t, segs = x :: t := by
    cases segs with
    | nil => exact absurd rfl hne
    | cons x t => exact ⟨x, t, rfl⟩
  have hx := hs x (by simp)
  have hnn : List.intercalate ['/'] (x :: t) ≠ [] :=
    intercalate_ne_nil_of_head ['/'] x t hx.1
  have hhead : (List.intercalate ['/'] (x :: t)).head? = x.head? :=
    head?_intercalate ['/'] x t hx.1
  have hroot : ¬ (List.intercalate ['/'] (x :: t)).head? = some '/' := by
    rw [hhead]
    cases x with
    | nil => exact absurd rfl hx.1
    | cons a xs =>
        intro hc
        have ha : a = '/' := by cases hc; rfl
        exact hx.2.1 (by rw [ha] at *; exact List.mem_cons_self _ _)
  unfold pathClean
  rw [if_neg hnn]
  dsimp only
  rw [if_neg hroot,
    splitChar_intercalate '/' (x :: t) (fun z hz => (hs z hz).2.1) (by simp),
    cleanSegs_all_simple _ _ [] hs]
  rw [List.reverse_nil, List.nil_append]
  rw [show ("/".toList : Str) = ['/'] from rfl]
  rw [if_neg hnn]

end Wskdeploy

namespace Wskdeploy

theorem pathJoin2_seg_plain (p : Str) (segs : List Str) (hp : simpleSeg p)
    (hs : ∀ s ∈ segs, simpleSeg s) (hne : segs ≠ []) :
    pathJoin2 p (List.intercalate ['/'] segs) =
      p ++ '/' :: List.intercalate ['/'] segs := by
  obtain ⟨x, t, rfl⟩ : ∃ x t, segs = x :: t := by
    cases segs with
    | nil => exact absurd rfl hne
    | cons x t => exact ⟨x, t, rfl⟩
  have hact_ne : List.intercalate ['/'] (x :: t) ≠ [] :=
    intercalate_ne_nil_of_head ['/'] x t (hs x (by simp)).1
  unfold pathJoin2
  rw [if_neg (fun hc => hp.1 hc.1), if_neg hp.1, if_neg hact_ne]
  have hjoin : p ++ '/' :: List.intercalate ['/'] (x :: t) =
      List.intercalate ['/'] (p :: x :: t) := by
    rw [intercalate_cons₂, List.append_assoc, List.singleton_append]
  rw [hjoin, pathClean_plain (p :: x :: t) (by simp)]
  intro z hz
  rcases List.mem_cons.mp hz with hz | hz
  · rw [hz]; exact hp
  · exact hs z hz

theorem pathJoin2_seg_rooted (n : Str) (segs : List Str) (hn : simpleSeg n)
    (hs : ∀ s ∈ segs, simpleSeg s) (hne : segs ≠ []) :
    pathJoin2 ('/' :: n) (List.intercalate ['/'] segs) =
      '/' :: (n ++ '/' :: List.intercalate ['/'] segs) := by
  obtain ⟨x, t, rfl⟩ : ∃ x t, segs = x :: t := by
    cases segs with
    | nil => exact absurd rfl hne
    | cons x t => exact ⟨x, t, rfl⟩
  have hact_ne : List.intercalate ['/'] (x :: t) ≠ [] :=
    intercalate_ne_nil_of_head ['/'] x t (hs x (by simp)).1
  unfold pathJoin2
  rw [if_neg (fun hc => List.cons_ne_nil _ _ hc.1),
    if_neg (List.cons_ne_nil _ _), if_neg hact_ne]
  have hjoin : ('/' :: n) ++ '/' :: List.intercalate ['/'] (x :: t) =
      '/' :: List.intercalate ['/'] (n :: x :: t) := by
    rw [intercalate_cons₂, List.append_assoc, List.singleton_append,
      List.cons_append]
  rw [hjoin, pathClean_rooted (n :: x :: t) (by simp)]
  · rw [intercalate_cons₂, List.append_assoc, List.singleton_append]
  · intro z hz
    rcases List.mem_cons.mp hz with hz | hz
    · rw [hz]; exact hn
    · exact hs z hz

end Wskdeploy

namespace Wskdeploy

/-- C7: For every sequence declared in package p under namespace n with
comma-separated action list, each element is trimmed of surrounding
whitespace; an element containing no '/' and not already prefixed with
"p/" is qualified with the owning package name, and every element is then
prefixed with "/n/"; e.g. the list "a, p/b, c" composes to exactly the
ordered component list ["/n/p/a", "/n/p/b", "/n/p/c"], with declaration
order preserved.  (An element without '/' can never carry the "p/"
prefix, so qualification is exactly the no-slash case.) -/
theorem c7_sequence_qualification (cfg : Config) (n p : Str)
    (ma : KeyValue) (key : Str) (seq : GoSequence)
    (hn : simpleSeg n) (hp : simpleSeg p)
    (hs : ∀ e ∈ splitChar ',' seq.actions,
      ∀ z ∈ splitChar '/' (trimSpace e), simpleSeg z) :
    (composeOneSequence cfg n p ma key seq).action.exec.components =
      (splitChar ',' seq.actions).map (fun e =>
        if '/' ∈ trimSpace e then '/' :: (n ++ '/' :: trimSpace e)
        else '/' :: (n ++ '/' :: (p ++ '/' :: trimSpace e))) := by
  unfold composeOneSequence
  dsimp only
  apply List.map_congr_left
  intro e he
  dsimp only
  have hsegs : ∀ z ∈ splitChar '/' (trimSpace e), simpleSeg z := hs e he
  have hact : List.intercalate ['/'] (splitChar '/' (trimSpace e)) =
      trimSpace e := intercalate_splitChar '/' (trimSpace e)
  by_cases hsl : '/' ∈ trimSpace e
  · have hcont : (trimSpace e).contains '/' = true := by
      simpa [List.contains] using hsl
    rw [if_neg (fun hc => hc.1 hcont), if_pos hsl, ← hact,
      pathJoin2_seg_rooted n _ hn hsegs (splitChar_ne_nil _ _)]
  · have hsp : splitChar '/' (trimSpace e) = [trimSpace e] :=
      splitChar_nin '/' _ hsl
    have hsimple : simpleSeg (trimSpace e) :=
      hsegs _ (by rw [hsp]; exact List.mem_cons_self _ _)
    have hcont : ¬ (trimSpace e).contains '/' = true := by
      simpa [List.contains] using hsl
    have hpre : ¬ goHasPre (p ++ ['/']) (trimSpace e) = true := by
      intro hc
      unfold goHasPre at hc
      rcases List.isPrefixOf_iff_prefix.mp hc with ⟨r, hr⟩
      apply hsl
      rw [← hr]
      simp
    rw [if_pos ⟨hcont, hpre⟩, if_neg hsl]
    have h1 : pathJoin2 p (trimSpace e) = p ++ '/' :: trimSpace e := by
      conv_lhs => rw [show trimSpace e =
        List.intercalate ['/'] [trimSpace e] from (intercalate_singleton _ _).symm]
      rw [pathJoin2_seg_plain p [trimSpace e] hp
        (by intro z hz; rw [List.mem_singleton.mp hz]; exact hsimple) (by simp),
        intercalate_singleton]
    have h2 : p ++ '/' :: trimSpace e =
        List.intercalate ['/'] [p, trimSpace e] := by
      rw [intercalate_cons₂, intercalate_singleton, List.append_assoc,
        List.singleton_append]
    rw [h1, h2, pathJoin2_seg_rooted n [p, trimSpace e] hn
      (by intro z hz
          rcases List.mem_cons.mp hz with hz | hz
          · rw [hz]; exact hp
          · rw [List.mem_singleton.mp hz]; exact hsimple)
      (by simp), ← h2]

/-- Witness for C7 on the spec's §8 example: package `p`, namespace `n`,
sequence list "a, p/b, c" composes to exactly
["/n/p/a", "/n/p/b", "/n/p/c"]. -/
theorem c7_sequence_qualification_witness :
    (simpleSeg "n".toList ∧ simpleSeg "p".toList ∧
      ∀ e ∈ splitChar ',' ("a, p/b, c".toList : Str),
        ∀ z ∈ splitChar '/' (trimSpace e), simpleSeg z) ∧
    (composeOneSequence cfgEx "n".toList "p".toList
        ⟨"managed".toList, .vbool true⟩ "s".toList
        { actions := "a, p/b, c".toList }).action.exec.components =
      ["/n/p/a".toList, "/n/p/b".toList, "/n/p/c".toList] := by
  refine ⟨⟨by decide, by decide, by decide⟩, ?_⟩
  have h := c7_sequence_qualification cfgEx "n".toList "p".toList
    ⟨"managed".toList, .vbool true⟩ "s".toList
    { actions := "a, p/b, c".toList } (by decide) (by decide) (by decide)
  rw [h]
  decide

end Wskdeploy
